import Mathlib

/-!
VoiceLint: ring buffer, CTC decoding and low-frame-rate stacking

A shallow embedding of the sample ring buffer of `src/audio.h` and of the
decoding and feature-stacking routines of `src/asr.cpp`, followed by the
properties proved about them.

Conventions of the embedding:
* a `std::vector` is a `List`; an index outside the vector is undefined
  behaviour in the source and is reported here as a `Fault` (or `none`);
* a `std::string` is its list of bytes (`Str`), because `find` and `substr`
  count bytes;
* samples and logits are 32-bit floats in the source; the code only copies
  and compares them, so their type is a parameter of the embedding;
* the `int` cursors and sizes are natural numbers: every value is
  non-negative and assumed to fit its machine type.
-/

namespace VoiceLint

/-! ## Definitions: `_AudioBuffer` (src/audio.h, lines 89-132) -/

/-- The record `_AudioBuffer`: backing store, capacity and the two cursors. -/
structure AudioBuffer (α : Type) where
  data : List α
  capacity : Nat
  readIndex : Nat
  writeIndex : Nat
deriving Repr, DecidableEq

/-- The constructor `_AudioBuffer(size)`: `data.resize(size)` fills the store with
value-initialised samples, both cursors start at 0. -/
def AudioBuffer.init {α : Type} [Inhabited α] (size : Nat) : AudioBuffer α :=
  { data := List.replicate size default, capacity := size, readIndex := 0, writeIndex := 0 }

/-- One iteration of the loop of `write`: store the sample at the write cursor,
advance the write cursor modulo the capacity, and push the read cursor when the
write cursor has caught up with it. -/
def AudioBuffer.writeOne {α : Type} (b : AudioBuffer α) (x : α) : AudioBuffer α :=
  let data := b.data.set b.writeIndex x
  let writeIndex := (b.writeIndex + 1) % b.capacity
  let readIndex :=
    if writeIndex = b.readIndex then (b.readIndex + 1) % b.capacity else b.readIndex
  { data := data, capacity := b.capacity, readIndex := readIndex, writeIndex := writeIndex }

/-- The method `write(input, size)`: the loop body applied to each input sample in order. -/
def AudioBuffer.write {α : Type} (b : AudioBuffer α) (input : List α) : AudioBuffer α :=
  input.foldl AudioBuffer.writeOne b

/-- The loop of `read`: at most `size` iterations, stopping as soon as the cursors meet;
`output` is the vector being built. -/
def AudioBuffer.readLoop {α : Type} [Inhabited α] (b : AudioBuffer α) :
    Nat → List α → AudioBuffer α × List α
  | 0, output => (b, output)
  | k + 1, output =>
    if b.readIndex = b.writeIndex then (b, output)
    else AudioBuffer.readLoop { b with readIndex := (b.readIndex + 1) % b.capacity } k
           (output ++ [b.data.getD b.readIndex default])

/-- The method `read(size)`: the buffer after the call and the returned vector. -/
def AudioBuffer.read {α : Type} [Inhabited α] (b : AudioBuffer α) (size : Nat) :
    AudioBuffer α × List α :=
  AudioBuffer.readLoop b size []

/-! ### Specification vocabulary for the ring buffer -/

/-- Number of unread samples: `(writeIndex - readIndex) mod capacity`. -/
def AudioBuffer.available {α : Type} (b : AudioBuffer α) : Nat :=
  (b.writeIndex + b.capacity - b.readIndex) % b.capacity

/-- The sample stored `i` places after the read cursor, wrapping around. -/
def AudioBuffer.slot {α : Type} [Inhabited α] (b : AudioBuffer α) (i : Nat) : α :=
  b.data.getD ((b.readIndex + i) % b.capacity) default

/-- The unread samples in FIFO order, starting at the read cursor. -/
def AudioBuffer.unread {α : Type} [Inhabited α] (b : AudioBuffer α) : List α :=
  (List.range b.available).map b.slot

/-- Well-formed cursors: positive capacity and both cursors inside `[0, capacity)`. -/
structure AudioBuffer.Wf {α : Type} (b : AudioBuffer α) : Prop where
  cap_pos : 0 < b.capacity
  read_lt : b.readIndex < b.capacity
  write_lt : b.writeIndex < b.capacity

/-- A call on the ring buffer: `write(xs)` or `read(n)`. -/
inductive BufferOp (α : Type) where
  | write (xs : List α)
  | read (n : Nat)
deriving Repr

/-- Run a sequence of calls; the second component accumulates the results of the reads. -/
def runOps {α : Type} [Inhabited α] :
    AudioBuffer α → List α → List (BufferOp α) → AudioBuffer α × List α
  | b, out, [] => (b, out)
  | b, out, BufferOp.write xs :: ops => runOps (b.write xs) out ops
  | b, out, BufferOp.read n :: ops => runOps (b.read n).1 (out ++ (b.read n).2) ops

/-- All samples written by a sequence of calls, in order. -/
def writtenBy {α : Type} : List (BufferOp α) → List α
  | [] => []
  | BufferOp.write xs :: ops => xs ++ writtenBy ops
  | BufferOp.read _ :: ops => writtenBy ops

/-- The count of samples written and not yet read stays below `C` throughout the calls,
starting from a count of `pending`. -/
def staysBelow {α : Type} (C : Nat) : Nat → List (BufferOp α) → Prop
  | _, [] => True
  | pending, BufferOp.write xs :: ops =>
      pending + xs.length < C ∧ staysBelow C (pending + xs.length) ops
  | pending, BufferOp.read n :: ops => staysBelow C (pending - min n pending) ops


/-! ## Definitions: `ASR::ctc_search` (src/asr.cpp, lines 290-341) -/

/-- A `std::string`, as its bytes. -/
abbrev Str := List Nat

/-- The undefined behaviours the decoding can run into. -/
inductive Fault where
  | tokenIndex (index size : Nat)
  | vocabIndex (index size : Nat)
deriving Repr, DecidableEq

deriving instance DecidableEq for Except

/-- The word-boundary marker "▁" (U+2581), three bytes in UTF-8. -/
def unicodeChar : Str := [0xE2, 0x96, 0x81]

/-- The string "<|withitn|>". -/
def withitn : Str := [60, 124, 119, 105, 116, 104, 105, 116, 110, 124, 62]

/-- The string "<|zh|>". -/
def zhTag : Str := [60, 124, 122, 104, 124, 62]

/-- The index `blank_id`. -/
def blank_id : Int := 0

/-- The scan of `std::max_element` after its first element: `largest` is replaced by a
later element only when that one is strictly greater. -/
def max_element_loop {α : Type} [LT α] [DecidableRel (fun (a b : α) => a < b)] :
    List α → Nat → α → Nat → Nat
  | [], _, _, largestIdx => largestIdx
  | x :: xs, i, largest, largestIdx =>
    if largest < x then max_element_loop xs (i + 1) x i
    else max_element_loop xs (i + 1) largest largestIdx

/-- The index `std::distance(first, std::max_element(first, last))`: the position of the
first greatest element, 0 for the empty range. -/
def max_element {α : Type} [LT α] [DecidableRel (fun (a b : α) => a < b)] : List α → Nat
  | [] => 0
  | x :: xs => max_element_loop xs 1 x 0

/-- The frame loop of `ctc_search` (lines 299-311): `frames` iterations left, `data` the
rest of the logits, `prev_id` and `tokens` as in the source. -/
def ctc_frames {α : Type} [LT α] [DecidableRel (fun (a b : α) => a < b)] (vocab_size : Nat) :
    Nat → List α → Int → List Nat → List Nat
  | 0, _, _, tokens => tokens
  | frames + 1, data, prev_id, tokens =>
    let y := max_element (data.take vocab_size)
    let tokens := if (y : Int) ≠ blank_id ∧ (y : Int) ≠ prev_id then tokens ++ [y] else tokens
    ctc_frames vocab_size frames (data.drop vocab_size) (y : Int) tokens

/-- The kept-token sequence `tokens` when the frame loop ends. -/
def ctc_tokens {α : Type} [LT α] [DecidableRel (fun (a b : α) => a < b)]
    (vocab_size speech_length : Nat) (data : List α) : List Nat :=
  ctc_frames vocab_size speech_length data (-1) []

/-- The read `tokens[i]`. -/
def tokenAt (tokens : List Nat) (i : Nat) : Except Fault Nat :=
  match tokens[i]? with
  | some t => Except.ok t
  | none => Except.error (Fault.tokenIndex i tokens.length)

/-- The read `vocab[k]`. -/
def vocabAt (vocab : List Str) (k : Nat) : Except Fault Str :=
  match vocab[k]? with
  | some s => Except.ok s
  | none => Except.error (Fault.vocabIndex k vocab.length)

/-- The four metadata strings of `ctc_search`. -/
structure CtcTags where
  str_lang : Str
  str_emo : Str
  str_event : Str
  str_itn : Str
deriving Repr, DecidableEq

/-- The metadata step (lines 312-321): the four tags start empty and are read from the
first tokens when `tokens.size() >= 3`. -/
def ctc_tags (vocab : List Str) (tokens : List Nat) : Except Fault CtcTags :=
  if tokens.length ≥ 3 then do
    let t0 ← tokenAt tokens 0
    let str_lang ← vocabAt vocab t0
    let t1 ← tokenAt tokens 1
    let str_emo ← vocabAt vocab t1
    let t2 ← tokenAt tokens 2
    let str_event ← vocabAt vocab t2
    let t3 ← tokenAt tokens 3
    let str_itn ← vocabAt vocab t3
    pure { str_lang := str_lang, str_emo := str_emo, str_event := str_event, str_itn := str_itn }
  else
    pure { str_lang := [], str_emo := [], str_event := [], str_itn := [] }

/-- The call `word.find(pat)`: the least position at which `pat` occurs in `word`, `none`
for `npos`. -/
def str_find : Str → Str → Option Nat
  | [], pat => if pat = [] then some 0 else none
  | c :: cs, pat =>
    if pat.isPrefixOf (c :: cs) then some 0 else (str_find cs pat).map (fun p => p + 1)

/-- The body of the text loop (lines 324-330): a word that contains the marker is appended
as a space and `word.substr(3)`, any other word is appended as it is. -/
def appendWord (text word : Str) : Str :=
  match str_find word unicodeChar with
  | some _ => text ++ ([32] ++ word.drop 3)
  | none => text ++ word

/-- The text loop `for (i = 4; i < tokens.size(); ++i)` (lines 323-331), with `fuel`
bounding the iterations left. -/
def ctc_text_loop (vocab : List Str) (tokens : List Nat) : Nat → Nat → Str → Except Fault Str
  | 0, _, text => Except.ok text
  | fuel + 1, i, text =>
    if i < tokens.length then do
      let t ← tokenAt tokens i
      let word ← vocabAt vocab t
      ctc_text_loop vocab tokens fuel (i + 1) (appendWord text word)
    else Except.ok text

/-- The string `text` when the text loop ends; `tokens.length` iterations are enough. -/
def ctc_words (vocab : List Str) (tokens : List Nat) : Except Fault Str :=
  ctc_text_loop vocab tokens tokens.length 4 []

/-- The terminal punctuation step (lines 332-338). -/
def ctc_punct (tags : CtcTags) (text : Str) : Str :=
  if tags.str_itn = withitn then
    if tags.str_lang = zhTag then text else text ++ [46]
  else text

/-- The part of `ctc_search` after the frame loop (lines 312-340). -/
def ctc_decode (vocab : List Str) (tokens : List Nat) : Except Fault Str := do
  let tags ← ctc_tags vocab tokens
  let text ← ctc_words vocab tokens
  pure (tags.str_lang ++ tags.str_emo ++ tags.str_event ++ [32] ++ ctc_punct tags text)

/-- The function `ASR::ctc_search(data, speech_length, data_shape)`, with
`speech_length[0]` and `data_shape[2]` passed as numbers. -/
def ctc_search {α : Type} [LT α] [DecidableRel (fun (a b : α) => a < b)]
    (vocab : List Str) (data : List α) (speech_length vocab_size : Nat) : Except Fault Str :=
  ctc_decode vocab (ctc_tokens vocab_size speech_length data)

/-! ### Specification vocabulary for the decoding -/

/-- The per-frame arg-max labels of a logits tensor of `frames` rows of `vocab_size`. -/
def frameLabels {α : Type} [LT α] [DecidableRel (fun (a b : α) => a < b)]
    (vocab_size : Nat) : Nat → List α → List Nat
  | 0, _ => []
  | frames + 1, data =>
    max_element (data.take vocab_size) :: frameLabels vocab_size frames (data.drop vocab_size)

/-- The test of the frame loop on a label sequence: a label is kept when it is not the
blank and differs from the label of the frame before (`prev_id`). -/
def keepLabels : Int → List Nat → List Nat
  | _, [] => []
  | prev_id, y :: ys =>
    (if (y : Int) ≠ blank_id ∧ (y : Int) ≠ prev_id then [y] else []) ++ keepLabels (y : Int) ys

/-- Merge every run of consecutive equal labels into one label. -/
def mergeRuns : List Nat → List Nat
  | [] => []
  | [a] => [a]
  | a :: b :: rest => if a = b then mergeRuns (b :: rest) else a :: mergeRuns (b :: rest)

/-- Remove the blank label (index 0). -/
def removeBlanks (labels : List Nat) : List Nat :=
  labels.filter (fun y => y ≠ 0)

/-- The text of a list of words: each one appended by the loop body, in order. -/
def wordsText (words : List Str) : Str :=
  words.foldl appendWord []


/-! ## Definitions: `ASR::normalize_features` (src/asr.cpp, lines 241-288) -/

/-- The frame count `T_lrf = ceil(1.0 * T / lfr_n)`. For 32-bit `T` and `lfr_n >= 1` the
double-precision quotient is exact enough for `ceil` to return the true ceiling, which
is `(T + lfr_n - 1) / lfr_n` in integer arithmetic. -/
def lfr_count (T lfr_n : Nat) : Nat :=
  (T + lfr_n - 1) / lfr_n

/-- The front padding loop (lines 247-249): `count` times
`features.insert(features.begin(), features[0])`; `none` when `features[0]` does not exist. -/
def pad_front {α : Type} : Nat → List (List α) → Option (List (List α))
  | 0, features => some features
  | count + 1, features =>
    match features[0]? with
    | some first => pad_front count (first :: features)
    | none => none

/-- Append `features[idx]` to `p` for each index of `idxs` in turn, as the three inner
loops of the stacking do; `none` when an index is outside `features`. -/
def append_frames {α : Type} (features : List (List α)) : List Nat → List α → Option (List α)
  | [], p => some p
  | idx :: idxs, p =>
    match features[idx]? with
    | some frame => append_frames features idxs (p ++ frame)
    | none => none

/-- The body of the window loop (lines 254-277) for window `i`: the full window when
`lfr_m <= T - i * lfr_n`, else the frames that are left followed by `num_padding` copies
of the last frame. The bound `features.size() - i * lfr_n` of the second branch is
unsigned, so `i * lfr_n > features.size()` wraps around and runs off the vector. -/
def lfr_window {α : Type} (lfr_m lfr_n T : Nat) (features : List (List α)) (i : Nat) :
    Option (List α) :=
  if lfr_m + i * lfr_n ≤ T then
    append_frames features ((List.range lfr_m).map (fun j => i * lfr_n + j)) []
  else if features.length < i * lfr_n then none
  else
    let num_padding := lfr_m - (T - i * lfr_n)
    match append_frames features
        ((List.range (features.length - i * lfr_n)).map (fun j => i * lfr_n + j)) [] with
    | some p =>
      append_frames features (List.replicate num_padding (features.length - 1)) p
    | none => none

/-- The window loop `for (i = 0; i < T_lrf; i++)`, from window `i` on, with `count`
windows left; `out_feats` is the vector being built. -/
def lfr_windows {α : Type} (lfr_m lfr_n T : Nat) (features : List (List α)) :
    Nat → Nat → List (List α) → Option (List (List α))
  | 0, _, out_feats => some out_feats
  | count + 1, i, out_feats =>
    match lfr_window lfr_m lfr_n T features i with
    | some p => lfr_windows lfr_m lfr_n T features count (i + 1) (out_feats ++ [p])
    | none => none

/-- Lines 242-278: padding and stacking, before the normalisation. The division by
`lfr_n = 0` has no defined result. -/
def lfr_stack {α : Type} (lfr_m lfr_n : Nat) (features : List (List α)) :
    Option (List (List α)) :=
  if lfr_n = 0 then none
  else
    let T := features.length
    let T_lrf := lfr_count T lfr_n
    match pad_front ((lfr_m - 1) / 2) features with
    | some padded =>
      lfr_windows lfr_m lfr_n (T + (lfr_m - 1) / 2) padded T_lrf 0 []
    | none => none

/-- The inner loop of the normalisation (lines 281-283) on one window, from index `j`
with `count` indices left: `out_feat[j] = (out_feat[j] + means_list[j]) * vars_list[j]`. -/
def cmvn_loop {α : Type} [Add α] [Mul α] (means_list vars_list : List α) :
    Nat → Nat → List α → Option (List α)
  | 0, _, out_feat => some out_feat
  | count + 1, j, out_feat =>
    match out_feat[j]?, means_list[j]?, vars_list[j]? with
    | some x, some mean, some var =>
      cmvn_loop means_list vars_list count (j + 1) (out_feat.set j ((x + mean) * var))
    | _, _, _ => none

/-- The normalisation of one window: `j` runs over `means_list.size()` indices. -/
def cmvn_frame {α : Type} [Add α] [Mul α] (means_list vars_list : List α)
    (out_feat : List α) : Option (List α) :=
  cmvn_loop means_list vars_list means_list.length 0 out_feat

/-- The outer loop of the normalisation (lines 280-284): every window in turn. -/
def cmvn_frames {α : Type} [Add α] [Mul α] (means_list vars_list : List α) :
    List (List α) → Option (List (List α))
  | [] => some []
  | out_feat :: rest =>
    match cmvn_frame means_list vars_list out_feat with
    | some normalized =>
      match cmvn_frames means_list vars_list rest with
      | some others => some (normalized :: others)
      | none => none
    | none => none

/-- The function `ASR::normalize_features`: the new value of `features`, or `none` when an
access falls outside its vector. -/
def normalize_features {α : Type} [Add α] [Mul α] (lfr_m lfr_n : Nat)
    (means_list vars_list : List α) (features : List (List α)) : Option (List (List α)) :=
  match lfr_stack lfr_m lfr_n features with
  | some out_feats => cmvn_frames means_list vars_list out_feats
  | none => none

/-! ### Specification vocabulary for the stacking -/

/-- The input with its first frame repeated `(lfr_m - 1) / 2` times in front. -/
def paddedInput {α : Type} (lfr_m : Nat) (features : List (List α)) : List (List α) :=
  List.replicate ((lfr_m - 1) / 2) (features.headD []) ++ features

/-- The window `i` over the frame list `P`: the concatenation for j = 0 .. lfr_m - 1 of
`P[min(i * lfr_n + j, |P| - 1)]`. -/
def stackedWindow {α : Type} (lfr_m lfr_n : Nat) (P : List (List α)) (i : Nat) : List α :=
  ((List.range lfr_m).map (fun j => P.getD (min (i * lfr_n + j) (P.length - 1)) [])).flatten

/-! ## Definitions: `LLM::_queue_t` (src/llm.h, lines 60-86) -/

/-- The conversion of an `int` to `size_t` (64 bits) that the comparisons of a size with
an `int` perform. -/
def toSizeT (x : Int) : Nat :=
  (x % (2 : Int) ^ 64).toNat

/-- The record `_queue_t`: the deque of fragments and the running byte count. -/
structure RefineQueue where
  q : List Str
  cur_size : Int
deriving Repr, DecidableEq

/-- The method `push(text)`. -/
def RefineQueue.push (Q : RefineQueue) (text : Str) : RefineQueue :=
  { q := Q.q ++ [text], cur_size := Q.cur_size + text.length }

/-- The loop of `fetch`: append the front fragment, pop it, and stop once
`result.size() >= chunk_size` or the deque is empty. -/
def RefineQueue.fetchLoop (chunk_size : Int) : List Str → Int → Str → Str × RefineQueue
  | [], cur_size, result => (result, { q := [], cur_size := cur_size })
  | front :: rest, cur_size, result =>
    if (result ++ front).length ≥ toSizeT chunk_size then
      (result ++ front, { q := rest, cur_size := cur_size - front.length })
    else RefineQueue.fetchLoop chunk_size rest (cur_size - front.length) (result ++ front)

/-- The method `fetch(chunk_size)`: the returned string and the queue after the call. -/
def RefineQueue.fetch (Q : RefineQueue) (chunk_size : Int) : Str × RefineQueue :=
  RefineQueue.fetchLoop chunk_size Q.q Q.cur_size []

/-! ## Definitions: the scheduler of `LLM::init` (src/llm.cpp, lines 69-132) and
`LLM::refine`, `LLM::summarize` (lines 152-164) -/

/-- The enumeration `LLMStatus`. -/
inductive LLMStatus where
  | LLM_IDLE
  | LLM_REFINE
  | LLM_SUMMARIZE
deriving Repr, DecidableEq

/-- The fields of `LLM` that the scheduler uses, together with the local `start` of the
thread (a reading of the steady clock, in clock ticks) and the contents of the refine
output file when it is open. -/
structure LLMState where
  refine_system_prompt : Str
  refine_chunk_size : Int
  refine_span : Int
  summarize_system_prompt : Str
  force_refine : Bool
  force_summarize : Bool
  wait_refine_messages : RefineQueue
  refined_text : Str
  summarized_text : Str
  status : LLMStatus
  start : Int
  refine_output_file : Option Str
deriving Repr, DecidableEq

/-- What one iteration of the scheduler loop does to the outside: the calls
`llm_predict(text, system_prompt)`, the calls `func(name, text)` and whether it slept. -/
structure LLMEffects where
  calls : List (Str × Str)
  shown : List (String × Str)
  slept : Bool
deriving Repr, DecidableEq

/-- Ticks of the steady clock per second (the clock counts nanoseconds). -/
def ticksPerSecond : Int := 1000000000

/-- The value `duration_cast<seconds>(now - start).count()`: the difference in whole
seconds, rounded towards zero. -/
def elapsed_count (start now : Int) : Int :=
  Int.tdiv (now - start) ticksPerSecond

/-- One iteration of the `while (thread_running)` loop of the scheduler thread (lines
100-128), from `status = LLM_IDLE` to the next `continue` or the end of the body.
`llm_predict` is the lambda of that name seen as a function of its arguments, `func`
tells whether the callback pointer is non-null, `now` is the reading of the clock. -/
def llm_iteration (llm_predict : Str → Str → Str) (func : Bool) (now : Int) (s : LLMState) :
    LLMState × LLMEffects :=
  let s := { s with status := LLMStatus.LLM_IDLE }
  if s.force_summarize = true ∧ s.refined_text.length > 0 then
    let s := { s with status := LLMStatus.LLM_SUMMARIZE }
    let s := { s with summarized_text := llm_predict s.refined_text s.summarize_system_prompt }
    let calls := [(s.refined_text, s.summarize_system_prompt)]
    if s.summarized_text = [] then
      (s, { calls := calls, shown := [], slept := false })
    else
      ({ s with force_summarize := false },
        { calls := calls,
          shown := if func then [("summarize", s.summarized_text)] else [],
          slept := false })
  else
    if elapsed_count s.start now < s.refine_span ∧ ¬ (s.force_refine = true) then
      (s, { calls := [], shown := [], slept := true })
    else
      let s := { s with start := now }
      let text := (s.wait_refine_messages.fetch s.refine_chunk_size).1
      let s := { s with
        wait_refine_messages := (s.wait_refine_messages.fetch s.refine_chunk_size).2 }
      let s := if s.force_refine = true then { s with force_refine := false } else s
      if text = [] then
        (s, { calls := [], shown := [], slept := false })
      else
        let s := { s with status := LLMStatus.LLM_REFINE }
        let refined := llm_predict text s.refine_system_prompt
        let calls := [(text, s.refine_system_prompt)]
        if refined = [] then
          (s, { calls := calls, shown := [], slept := false })
        else
          ({ s with
              refine_output_file := s.refine_output_file.map (fun file => file ++ refined),
              refined_text := s.refined_text ++ refined },
            { calls := calls,
              shown := if func then [("refine", refined)] else [],
              slept := false })

/-- The method `LLM::refine(text)`. -/
def LLM_refine (s : LLMState) (text : Str) : LLMState :=
  if text.length > 0 then
    { s with wait_refine_messages := s.wait_refine_messages.push text }
  else
    { s with force_refine := true }

/-- The method `LLM::summarize()`. -/
def LLM_summarize (s : LLMState) : LLMState :=
  { s with force_summarize := true }

/-- The string `postfix_think`, "</think>" followed by two line feeds. -/
def postfix_think : Str := [60, 47, 116, 104, 105, 110, 107, 62, 10, 10]

/-- What `openai::chat().create(request)` can hand to `llm_predict`: an exception, a
response that is null or has no "choices", an empty "choices" array, a first choice whose
"message"."content" is not a string (the `get` throws), or a first choice with content. -/
inductive ChatResponse where
  | threw
  | noChoices
  | emptyChoices
  | badContent
  | content (c : Str)
deriving Repr, DecidableEq

/-- Lines 84-89 of `llm_predict`: drop everything up to and including the first
"</think>\n\n" when `find` returns a position. -/
def strip_think (content : Str) : Str :=
  match str_find content postfix_think with
  | some pos => content.drop (pos + postfix_think.length)
  | none => content

/-- The lambda `llm_predict` as a function of the response (lines 72-93): the early
returns and the caught exceptions give the empty string. -/
def llm_predict_result : ChatResponse → Str
  | ChatResponse.threw => []
  | ChatResponse.noChoices => []
  | ChatResponse.emptyChoices => []
  | ChatResponse.badContent => []
  | ChatResponse.content c => strip_think c

/-! ## Definitions: `Audio::_AudioQueue` (src/audio.h, lines 52-80) -/

/-- The record `_AudioQueue`: the queue of frames and `maxSize`. -/
structure AudioQueue (α : Type) where
  q : List (List α)
  maxSize : Int
deriving Repr, DecidableEq

/-- The method `push(data)`: pop the oldest frame when `q.size() >= maxSize`, then push.
Popping an empty queue is undefined, reported as `none`. -/
def AudioQueue.push {α : Type} (Q : AudioQueue α) (data : List α) : Option (AudioQueue α) :=
  if Q.q.length ≥ toSizeT Q.maxSize then
    match Q.q with
    | [] => none
    | _ :: rest => some { Q with q := rest ++ [data] }
  else some { Q with q := Q.q ++ [data] }

/-- The method `pop()`, from the moment the wait ends: the empty vector when the queue is
still empty at the timeout, else the front frame, which is removed. -/
def AudioQueue.pop {α : Type} (Q : AudioQueue α) : List α × AudioQueue α :=
  match Q.q with
  | [] => ([], Q)
  | data :: rest => (data, { Q with q := rest })

/-- The frames a queue retains once the frames `fs` have been pushed onto it: the last
`maxSize` of the queued and the pushed frames. -/
def AudioQueue.retained {α : Type} (Q : AudioQueue α) (fs : List (List α)) : List (List α) :=
  (Q.q ++ fs).drop ((Q.q ++ fs).length - Q.maxSize.toNat)

/-- A call on the frame queue. -/
inductive QueueOp (α : Type) where
  | push (data : List α)
  | pop
deriving Repr

/-- Run a sequence of calls on the frame queue; the second component collects the frames
returned by the pops. `none` when a push is undefined. -/
def runQueue {α : Type} : AudioQueue α → List (List α) → List (QueueOp α) →
    Option (AudioQueue α × List (List α))
  | Q, out, [] => some (Q, out)
  | Q, out, QueueOp.push data :: ops =>
    match Q.push data with
    | some Q2 => runQueue Q2 out ops
    | none => none
  | Q, out, QueueOp.pop :: ops => runQueue Q.pop.2 (out ++ [Q.pop.1]) ops

/-! ## Definitions: `Audio::readAudio` (src/audio.cpp, lines 152-158) and the thread of
`ASR::setAudio` (src/asr.cpp, lines 85-108), with the clamp of `ASR::init` (lines 35-37)
and the callback that `main` installs (src/main.cpp, lines 92-95) -/

/-- The constant `Audio::sampleRate`. -/
def sampleRate : Int := 16000

/-- The method `Audio::readAudio(ms)`: nothing for `ms <= 0`, else a read of
`ms * sampleRate / 1000` samples (an `int`, converted to `size_t` by the call). -/
def readAudio {α : Type} [Inhabited α] (audioBuffer : AudioBuffer α) (ms : Int) :
    AudioBuffer α × List α :=
  if ms ≤ 0 then (audioBuffer, [])
  else audioBuffer.read (toSizeT (Int.tdiv (ms * sampleRate) 1000))

/-- Lines 35-37 of `ASR::init`: the pair `(chunk_time, overlap_time)` after the clamp
`if (overlap_time > chunk_time) overlap_time = chunk_time`. -/
def asr_init_times (chunk_time overlap_time : Int) : Int × Int :=
  (chunk_time, if overlap_time > chunk_time then chunk_time else overlap_time)

/-- The fields of `ASR` that the thread uses, its local `audio_data`, and what has been
written to `out`. -/
structure ASRState (α : Type) where
  chunk_time : Int
  overlap_time : Int
  asr_sample_rate : Int
  save : Bool
  audio_data : List α
  out : Str
deriving Repr, DecidableEq

/-- What the thread does to the outside: the buffers passed to `asr(audio_data)`, the
strings passed to `func(result)`, and the number of times it slept. -/
structure ASREffects (α : Type) where
  inferred : List (List α)
  reported : List Str
  sleeps : Nat
deriving Repr, DecidableEq

/-- The constant `min_chunk_length` of the thread. -/
def min_chunk_length {α : Type} (s : ASRState α) : Int :=
  Int.tdiv (s.chunk_time * s.asr_sample_rate) 1000

/-- The constant `overlap_chunk_length` of the thread. -/
def overlap_chunk_length {α : Type} (s : ASRState α) : Int :=
  Int.tdiv (s.overlap_time * s.asr_sample_rate) 1000

/-- Lines 97-104: append the chunk to `audio_data` and, when the size has reached
`min_chunk_length`, run one inference cycle: call `asr`, pass the result to the callback
when it is non-null, write it to `out` when `save` is set, and erase the range
`[begin, begin + size - overlap_chunk_length)`. An erased range that does not lie within
`audio_data` is undefined, reported as `none`. -/
def asr_accumulate {α : Type} (asr : List α → Str) (func : Bool) (s : ASRState α)
    (chunk : List α) : Option (ASRState α × ASREffects α) :=
  let audio_data := s.audio_data ++ chunk
  if audio_data.length ≥ toSizeT (min_chunk_length s) then
    let result := asr audio_data
    let reported := if func then [result] else []
    let out := if s.save = true then s.out ++ result else s.out
    if 0 ≤ overlap_chunk_length s ∧ overlap_chunk_length s ≤ (audio_data.length : Int) then
      some ({ s with
              audio_data := audio_data.drop (audio_data.length - (overlap_chunk_length s).toNat),
              out := out },
            { inferred := [audio_data], reported := reported, sleeps := 0 })
    else none
  else
    some ({ s with audio_data := audio_data }, { inferred := [], reported := [], sleeps := 0 })

/-- One iteration of the `while (asr_running)` loop (lines 91-104): read a chunk of
`chunk_time` milliseconds from the ring buffer; sleep and continue when it is empty, else
accumulate it. -/
def asr_iteration {α : Type} [Inhabited α] (asr : List α → Str) (func : Bool)
    (s : ASRState α) (audioBuffer : AudioBuffer α) :
    Option (ASRState α × AudioBuffer α × ASREffects α) :=
  if (readAudio audioBuffer s.chunk_time).2.isEmpty then
    some (s, (readAudio audioBuffer s.chunk_time).1,
      { inferred := [], reported := [], sleeps := 1 })
  else
    match asr_accumulate asr func s (readAudio audioBuffer s.chunk_time).2 with
    | some (s2, effects) => some (s2, (readAudio audioBuffer s.chunk_time).1, effects)
    | none => none

/-- The effects of two stretches of the loop, one after the other. -/
def ASREffects.append {α : Type} (e1 e2 : ASREffects α) : ASREffects α :=
  { inferred := e1.inferred ++ e2.inferred, reported := e1.reported ++ e2.reported,
    sleeps := e1.sleeps + e2.sleeps }

/-- The loop run for `iterations` iterations, with the effects collected in order. -/
def asr_run {α : Type} [Inhabited α] (asr : List α → Str) (func : Bool) :
    Nat → ASRState α → AudioBuffer α → Option (ASRState α × AudioBuffer α × ASREffects α)
  | 0, s, audioBuffer => some (s, audioBuffer, { inferred := [], reported := [], sleeps := 0 })
  | iterations + 1, s, audioBuffer =>
    match asr_iteration asr func s audioBuffer with
    | some (s2, audioBuffer2, effects) =>
      match asr_run asr func iterations s2 audioBuffer2 with
      | some (s3, audioBuffer3, effects2) => some (s3, audioBuffer3, effects.append effects2)
      | none => none
    | none => none

/-- The callback that `main` passes to `ASR::setAudio`, as far as the scheduler is
concerned: `LLM::instance().refine(result)`. -/
def asr_callback (llm : LLMState) (result : Str) : LLMState :=
  LLM_refine llm result

/-- Lines 346-357 of `ASR::asr`, from the extracted features on: normalise, then return
the empty string when no features are left. The outer `none` is an access outside a
vector, the inner `none` the return of the empty string. -/
def asr_normalized {α : Type} [Add α] [Mul α] (lfr_m lfr_n : Nat)
    (means_list vars_list : List α) (features : List (List α)) :
    Option (Option (List (List α))) :=
  match normalize_features lfr_m lfr_n means_list vars_list features with
  | none => none
  | some normalized => if normalized.isEmpty then some none else some (some normalized)

/-! ## Theorems: the ring buffer -/

theorem mod_two_range (x c : Nat) (h : x < 2 * c) :
    x % c = if x < c then x else x - c := by
  split
  · exact Nat.mod_eq_of_lt (by assumption)
  · rw [Nat.mod_eq_sub_mod (by omega)]
    exact Nat.mod_eq_of_lt (by omega)

theorem mod_cases (x c : Nat) (h : x < 2 * c) :
    x % c < c ∧ (x % c = x ∨ x % c + c = x) := by
  rw [mod_two_range x c h]
  by_cases hx : x < c
  · simp [hx]
  · simp only [hx, if_false]; omega

theorem avail_cases (r w c : Nat) (hr : r < c) (hw : w < c) :
    (w + c - r) % c < c ∧ (r + (w + c - r) % c = w ∨ r + (w + c - r) % c = w + c) := by
  have h := mod_cases (w + c - r) c (by omega)
  omega

theorem AudioBuffer.available_lt {α : Type} (b : AudioBuffer α) (h : b.Wf) :
    b.available < b.capacity :=
  Nat.mod_lt _ h.cap_pos

theorem AudioBuffer.unread_length {α : Type} [Inhabited α] (b : AudioBuffer α) :
    b.unread.length = b.available := by
  simp [AudioBuffer.unread]

theorem AudioBuffer.readLoop_eq {α : Type} [Inhabited α] (k : Nat) :
    ∀ (b : AudioBuffer α) (out : List α), b.Wf →
    b.readLoop k out =
      ({ b with readIndex := (b.readIndex + min k b.available) % b.capacity },
        out ++ (List.range (min k b.available)).map b.slot) := by
  induction k with
  | zero =>
    intro b out h
    simp [AudioBuffer.readLoop, Nat.mod_eq_of_lt h.read_lt]
  | succ k ih =>
    intro b out h
    obtain ⟨data, C, r, w⟩ := b
    obtain ⟨h1, h2, h3⟩ := h
    simp only at h1 h2 h3
    unfold AudioBuffer.readLoop
    have hA := avail_cases r w C h2 h3
    by_cases hrw : r = w
    · have h0 : (w + C - r) % C = 0 := by omega
      simp only [if_pos hrw, AudioBuffer.available, h0]
      simp [Nat.mod_eq_of_lt h3, hrw]
    · simp only [if_neg hrw]
      have hR := mod_cases (r + 1) C (by omega)
      have hwf : AudioBuffer.Wf
          ({ data := data, capacity := C, readIndex := (r + 1) % C, writeIndex := w } :
            AudioBuffer α) :=
        ⟨h1, Nat.mod_lt _ h1, h3⟩
      rw [ih _ _ hwf]
      simp only [AudioBuffer.available]
      have hA2 := avail_cases ((r + 1) % C) w C hR.1 h3
      generalize (w + C - (r + 1) % C) % C = a2 at hA2
      generalize (w + C - r) % C = a at hA
      generalize hr1 : (r + 1) % C = r1 at hR hA2
      have ha2 : a2 = a - 1 ∧ 0 < a := by omega
      obtain ⟨ha2, hpos⟩ := ha2
      have hmin : min (k + 1) a = min k (a - 1) + 1 := by omega
      rw [ha2, hmin, List.range_succ_eq_map]
      have hslot : ∀ i,
          AudioBuffer.slot
            ({ data := data, capacity := C, readIndex := r1, writeIndex := w } :
              AudioBuffer α) i
            = AudioBuffer.slot
                ({ data := data, capacity := C, readIndex := r, writeIndex := w } :
                  AudioBuffer α) (i + 1) := by
        intro i
        simp only [AudioBuffer.slot, ← hr1, Nat.mod_add_mod]
        congr 2; omega
      have h00 : AudioBuffer.slot
          ({ data := data, capacity := C, readIndex := r, writeIndex := w } :
            AudioBuffer α) 0 = data.getD r default := by
        simp [AudioBuffer.slot, Nat.mod_eq_of_lt h2]
      simp only [List.map_cons, List.map_map, h00, List.append_assoc, List.singleton_append]
      refine Prod.ext ?_ ?_
      · simp only [AudioBuffer.mk.injEq, true_and, and_true, ← hr1, Nat.mod_add_mod]
        congr 1; omega
      · simp only
        congr 2
        apply List.map_congr_left
        intro i _
        simp [hslot]

theorem AudioBuffer.read_eq {α : Type} [Inhabited α] (b : AudioBuffer α) (n : Nat)
    (h : b.Wf) :
    b.read n = ({ b with readIndex := (b.readIndex + min n b.available) % b.capacity },
      b.unread.take n) := by
  unfold AudioBuffer.read
  rw [AudioBuffer.readLoop_eq n b [] h]
  simp only [List.nil_append, AudioBuffer.unread, ← List.map_take, List.take_range]

theorem range_map_snoc {β : Type} (f : Nat → β) (x : β) (n : Nat) :
    (List.range n).map f ++ [x]
      = (List.range (n + 1)).map (fun i => if i < n then f i else x) := by
  rw [List.range_succ, List.map_append]
  congr 1
  · apply List.map_congr_left
    intro i hi
    simp [List.mem_range.mp hi]
  · simp

theorem getD_set_eq {α : Type} (l : List α) (w j : Nat) (x d : α) (hw : w < l.length) :
    (l.set w x).getD j d = if j = w then x else l.getD j d := by
  simp only [List.getD_eq_getElem?_getD, List.getElem?_set]
  by_cases h : w = j
  · subst h; simp [hw]
  · have h2 : ¬ j = w := fun e => h e.symm
    simp [h, h2]

theorem AudioBuffer.writeOne_wf {α : Type} (b : AudioBuffer α) (x : α) (h : b.Wf) :
    (b.writeOne x).Wf :=
  ⟨h.cap_pos, by
      simp only [AudioBuffer.writeOne]
      split
      · exact Nat.mod_lt _ h.cap_pos
      · exact h.read_lt,
    Nat.mod_lt _ h.cap_pos⟩

theorem AudioBuffer.writeOne_unread {α : Type} [Inhabited α] (b : AudioBuffer α) (x : α)
    (h : b.Wf) (hlen : b.data.length = b.capacity) :
    (b.writeOne x).unread = (b.unread ++ [x]).drop (b.available + 1 - (b.capacity - 1)) := by
  obtain ⟨data, C, r, w⟩ := b
  obtain ⟨h1, h2, h3⟩ := h
  simp only at h1 h2 h3 hlen
  unfold AudioBuffer.unread
  rw [range_map_snoc]
  simp only [AudioBuffer.writeOne, AudioBuffer.available, AudioBuffer.slot]
  have hget : ∀ j, (data.set w x).getD j default
      = if j = w then x else data.getD j default :=
    fun j => getD_set_eq data w j x default (by omega)
  have hW := mod_cases (w + 1) C (by omega)
  have hR := mod_cases (r + 1) C (by omega)
  have hA := avail_cases r w C h2 h3
  have hA1 := avail_cases ((r + 1) % C) ((w + 1) % C) C hR.1 hW.1
  have hA2 := avail_cases r ((w + 1) % C) C h2 hW.1
  generalize (w + 1) % C = w1 at hW hA1 hA2 ⊢
  generalize (r + 1) % C = r1 at hR hA1 ⊢
  generalize (w + C - r) % C = a at hA ⊢
  by_cases hfull : w1 = r
  · simp only [if_pos hfull]
    generalize (w1 + C - r1) % C = a1 at hA1 ⊢
    have ha2 : a1 = a ∧ a + 1 - (C - 1) = 1 := by omega
    obtain ⟨ha2, hd⟩ := ha2
    rw [ha2, hd, List.range_succ_eq_map, List.map_cons, List.drop_one, List.tail_cons,
      List.map_map]
    apply List.map_congr_left
    intro i hi
    have hi2 := List.mem_range.mp hi
    simp only [Function.comp, Nat.succ_eq_add_one, AudioBuffer.slot, hget]
    have hI := mod_cases (r1 + i) C (by omega)
    have hJ := mod_cases (r + (i + 1)) C (by omega)
    generalize (r1 + i) % C = p at hI
    generalize (r + (i + 1)) % C = q at hJ
    have hpq : p = q ∧ (p = w ↔ ¬ (i + 1 < a)) := by omega
    obtain ⟨hpq, hpw⟩ := hpq
    subst hpq
    by_cases hp : p = w
    · have : ¬ (i + 1 < a) := hpw.mp hp
      simp [hp, this]
    · have : i + 1 < a := by
        by_contra hc
        exact hp (hpw.mpr hc)
      simp [hp, this]
  · simp only [if_neg hfull]
    generalize (w1 + C - r) % C = a2 at hA2 ⊢
    have ha2 : a2 = a + 1 ∧ a + 1 - (C - 1) = 0 := by omega
    obtain ⟨ha2, hd⟩ := ha2
    rw [ha2, hd, List.drop_zero]
    apply List.map_congr_left
    intro i hi
    have hi2 := List.mem_range.mp hi
    simp only [AudioBuffer.slot, hget]
    have hI := mod_cases (r + i) C (by omega)
    generalize (r + i) % C = p at hI
    have hpw : p = w ↔ ¬ (i < a) := by omega
    by_cases hp : p = w
    · have : ¬ (i < a) := hpw.mp hp
      simp [hp, this]
    · have : i < a := by
        by_contra hc
        exact hp (hpw.mpr hc)
      simp [hp, this]

theorem AudioBuffer.writeOne_data_length {α : Type} (b : AudioBuffer α) (x : α) :
    (b.writeOne x).data.length = b.data.length ∧ (b.writeOne x).capacity = b.capacity := by
  simp [AudioBuffer.writeOne]

theorem AudioBuffer.write_spec {α : Type} [Inhabited α] (xs : List α) :
    ∀ (b : AudioBuffer α), b.Wf → b.data.length = b.capacity →
      (b.write xs).Wf ∧ (b.write xs).data.length = (b.write xs).capacity ∧
      (b.write xs).capacity = b.capacity ∧
      (b.write xs).unread
        = (b.unread ++ xs).drop (b.available + xs.length - (b.capacity - 1)) := by
  induction xs with
  | nil =>
    intro b h hlen
    have := AudioBuffer.available_lt b h
    have hd : b.available - (b.capacity - 1) = 0 := by omega
    simp [AudioBuffer.write, h, hlen, hd]
  | cons x xs ih =>
    intro b h hlen
    have hwf := AudioBuffer.writeOne_wf b x h
    obtain ⟨hl1, hc1⟩ := AudioBuffer.writeOne_data_length b x
    have hlen1 : (b.writeOne x).data.length = (b.writeOne x).capacity := by
      rw [hl1, hc1, hlen]
    obtain ⟨i1, i2, i3, i4⟩ := ih (b.writeOne x) hwf hlen1
    have hw : b.write (x :: xs) = (b.writeOne x).write xs := rfl
    rw [hw]
    refine ⟨i1, i2, by rw [i3, hc1], ?_⟩
    rw [i4, AudioBuffer.writeOne_unread b x h hlen, hc1]
    have hlt := AudioBuffer.available_lt b h
    have hul := AudioBuffer.unread_length b
    have hav1 : (b.writeOne x).available
        = b.available + 1 - (b.available + 1 - (b.capacity - 1)) := by
      rw [← AudioBuffer.unread_length, AudioBuffer.writeOne_unread b x h hlen]
      simp [hul]
    rw [hav1]
    have hle : b.available + 1 - (b.capacity - 1) ≤ (b.unread ++ [x]).length := by
      simp [hul]
    rw [← List.drop_append_of_le_length hle, List.drop_drop, List.append_assoc,
      List.singleton_append, List.length_cons]
    congr 1
    omega

theorem AudioBuffer.init_wf {α : Type} [Inhabited α] (C : Nat) (hC : 0 < C) :
    (AudioBuffer.init C : AudioBuffer α).Wf ∧
    (AudioBuffer.init C : AudioBuffer α).data.length = (AudioBuffer.init C : AudioBuffer α).capacity ∧
    (AudioBuffer.init C : AudioBuffer α).available = 0 ∧
    (AudioBuffer.init C : AudioBuffer α).unread = [] := by
  refine ⟨⟨hC, hC, hC⟩, by simp [AudioBuffer.init], ?_, ?_⟩
  · simp [AudioBuffer.init, AudioBuffer.available]
  · simp [AudioBuffer.init, AudioBuffer.unread, AudioBuffer.available]

theorem AudioBuffer.foldl_write {α : Type} (writes : List (List α)) :
    ∀ (b : AudioBuffer α), writes.foldl AudioBuffer.write b = b.write writes.flatten := by
  induction writes with
  | nil => intro b; rfl
  | cons w ws ih =>
    intro b
    rw [List.foldl_cons, ih, List.flatten_cons]
    simp [AudioBuffer.write, List.foldl_append]

theorem map_range_drop {β : Type} (f : Nat → β) (a m : Nat) :
    ((List.range a).map f).drop m = (List.range (a - m)).map (fun i => f (i + m)) := by
  apply List.ext_getElem
  · simp
  · intro i h1 h2
    simp [Nat.add_comm]

theorem AudioBuffer.read_unread {α : Type} [Inhabited α] (b : AudioBuffer α) (n : Nat)
    (h : b.Wf) :
    (b.read n).1.Wf ∧ (b.read n).1.data = b.data ∧ (b.read n).1.capacity = b.capacity ∧
    (b.read n).1.writeIndex = b.writeIndex ∧
    (b.read n).1.unread = b.unread.drop n ∧
    (b.read n).1.available = b.available - min n b.available := by
  rw [AudioBuffer.read_eq b n h]
  obtain ⟨data, C, r, w⟩ := b
  obtain ⟨h1, h2, h3⟩ := h
  simp only at h1 h2 h3
  have hwf : AudioBuffer.Wf
      ({ data := data, capacity := C,
         readIndex := (r + min n ((w + C - r) % C)) % C, writeIndex := w } : AudioBuffer α) :=
    ⟨h1, Nat.mod_lt _ h1, h3⟩
  have hA := avail_cases r w C h2 h3
  have hR := mod_cases (r + min n ((w + C - r) % C)) C (by omega)
  have hA2 := avail_cases ((r + min n ((w + C - r) % C)) % C) w C hR.1 h3
  have hav : (w + C - (r + min n ((w + C - r) % C)) % C) % C
      = (w + C - r) % C - min n ((w + C - r) % C) := by
    generalize (w + C - (r + min n ((w + C - r) % C)) % C) % C = a2 at hA2
    generalize (r + min n ((w + C - r) % C)) % C = r1 at hR hA2
    generalize (w + C - r) % C = a at hA hR
    omega
  refine ⟨hwf, rfl, rfl, rfl, ?_, ?_⟩
  · simp only [AudioBuffer.unread, AudioBuffer.available, hav]
    have hdrop : ∀ l : List α, l.length = (w + C - r) % C →
        l.drop n = l.drop (min n ((w + C - r) % C)) := by
      intro l hl
      by_cases hn : n ≤ (w + C - r) % C
      · rw [Nat.min_eq_left hn]
      · have hn2 : (w + C - r) % C ≤ n := by omega
        rw [Nat.min_eq_right hn2, List.drop_of_length_le (by omega),
          List.drop_of_length_le (by omega)]
    rw [hdrop _ (by simp), map_range_drop]
    apply List.map_congr_left
    intro i _
    simp only [AudioBuffer.slot, Nat.mod_add_mod]
    congr 2; omega
  · simp only [AudioBuffer.available, hav]

theorem runOps_spec {α : Type} [Inhabited α] (ops : List (BufferOp α)) :
    ∀ (b : AudioBuffer α) (out : List α), b.Wf → b.data.length = b.capacity →
      staysBelow b.capacity b.available ops →
      (runOps b out ops).2 ++ (runOps b out ops).1.unread
        = out ++ b.unread ++ writtenBy ops := by
  induction ops with
  | nil => intro b out _ _ _; simp [runOps, writtenBy]
  | cons op ops ih =>
    intro b out h hlen hs
    cases op with
    | write xs =>
      obtain ⟨hs1, hs2⟩ := hs
      obtain ⟨i1, i2, i3, i4⟩ := AudioBuffer.write_spec xs b h hlen
      have hd : b.available + xs.length - (b.capacity - 1) = 0 := by omega
      rw [hd, List.drop_zero] at i4
      have hav : (b.write xs).available = b.available + xs.length := by
        rw [← AudioBuffer.unread_length, i4, List.length_append, AudioBuffer.unread_length]
      simp only [runOps, writtenBy]
      rw [ih (b.write xs) out i1 i2 (by rw [i3, hav]; exact hs2), i4]
      simp [List.append_assoc]
    | read n =>
      obtain ⟨j1, j2, j3, j4, j5, j6⟩ := AudioBuffer.read_unread b n h
      have hs2 : staysBelow b.capacity (b.available - min n b.available) ops := hs
      simp only [runOps, writtenBy]
      rw [ih (b.read n).1 _ j1 (by rw [j2, j3]; exact hlen) (by rw [j3, j6]; exact hs2), j5,
        AudioBuffer.read_eq b n h]
      simp [List.append_assoc]

/-! ### Claims C1 to C3 -/

/-- C1 as stated fails: with capacity 2, writing the three samples 1, 2, 3 into the empty
buffer and then reading 2 samples returns only `[3]`, not the two most recent samples
`[2, 3]`. -/
theorem c1_ring_keeps_capacity_counterexample :
    (0 < 2) ∧ (2 < ([[1, 2, 3]] : List (List Nat)).flatten.length) ∧
    (([[1, 2, 3]].foldl AudioBuffer.write (AudioBuffer.init 2 : AudioBuffer Nat)).read 2).2
      = [3] ∧
    (([[1, 2, 3]].foldl AudioBuffer.write (AudioBuffer.init 2 : AudioBuffer Nat)).read 2).2
      ≠ ([[1, 2, 3]] : List (List Nat)).flatten.drop
          (([[1, 2, 3]] : List (List Nat)).flatten.length - 2) := by
  decide

/-- C1, amended: for a ring buffer of capacity C > 0 that starts empty and any sequence of
writes with no read in between whose total sample count is at least C - 1 (in particular
when it exceeds C), a following read that asks for at least C - 1 samples (in particular
at least C) returns exactly the most recent C - 1 samples written, in their original
order. -/
theorem c1_ring_keeps_last_capacity_minus_one {α : Type} [Inhabited α] (C : Nat)
    (hC : 0 < C) (writes : List (List α)) (n : Nat)
    (htotal : C - 1 ≤ writes.flatten.length) (hn : C - 1 ≤ n) :
    ((writes.foldl AudioBuffer.write (AudioBuffer.init C : AudioBuffer α)).read n).2
      = writes.flatten.drop (writes.flatten.length - (C - 1)) ∧
    ((writes.foldl AudioBuffer.write (AudioBuffer.init C : AudioBuffer α)).read n).2.length
      = C - 1 := by
  obtain ⟨w1, w2, w3, w4⟩ := AudioBuffer.init_wf (α := α) C hC
  obtain ⟨i1, i2, i3, i4⟩ :=
    AudioBuffer.write_spec writes.flatten (AudioBuffer.init C : AudioBuffer α) w1 w2
  have hcap : (AudioBuffer.init C : AudioBuffer α).capacity = C := rfl
  rw [w3, w4, hcap, List.nil_append, Nat.zero_add] at i4
  rw [AudioBuffer.foldl_write, AudioBuffer.read_eq _ n i1]
  simp only [i4]
  have hlen : (writes.flatten.drop (writes.flatten.length - (C - 1))).length = C - 1 := by
    rw [List.length_drop]; omega
  rw [List.take_of_length_le (by omega)]
  exact ⟨rfl, hlen⟩

/-- Witness for C1 (amended): capacity 3, writes `[1, 2]` then `[3, 4, 5]`, read of 3. -/
theorem c1_ring_keeps_last_capacity_minus_one_witness :
    (([[1, 2], [3, 4, 5]].foldl AudioBuffer.write
        (AudioBuffer.init 3 : AudioBuffer Nat)).read 3).2
      = ([[1, 2], [3, 4, 5]] : List (List Nat)).flatten.drop
          (([[1, 2], [3, 4, 5]] : List (List Nat)).flatten.length - (3 - 1)) ∧
    (([[1, 2], [3, 4, 5]].foldl AudioBuffer.write
        (AudioBuffer.init 3 : AudioBuffer Nat)).read 3).2.length = 3 - 1 :=
  c1_ring_keeps_last_capacity_minus_one 3 (by decide) [[1, 2], [3, 4, 5]] 3
    (by decide) (by decide)

/-- C2: for a buffer with capacity C > 0 and both cursors in [0, C), `read(n)` returns the
first min(n, available) unread samples in FIFO order starting at the read cursor, where
available = (writeIndex - readIndex) mod C; it returns at most n samples and at most the
available ones, nothing when nothing is unread; it advances the read cursor by the number
of samples returned modulo C and leaves the write cursor, the capacity and the stored
samples unchanged. -/
theorem c2_read_returns_available_fifo {α : Type} [Inhabited α] (b : AudioBuffer α)
    (n : Nat) (hC : 0 < b.capacity) (hr : b.readIndex < b.capacity)
    (hw : b.writeIndex < b.capacity) :
    (b.read n).2 = (List.range (min n b.available)).map
        (fun i => b.data.getD ((b.readIndex + i) % b.capacity) default) ∧
    (b.read n).2.length = min n b.available ∧
    (b.read n).2.length ≤ n ∧ (b.read n).2.length ≤ b.available ∧
    (b.available = 0 → (b.read n).2 = []) ∧
    (b.read n).1.readIndex = (b.readIndex + (b.read n).2.length) % b.capacity ∧
    (b.read n).1.writeIndex = b.writeIndex ∧
    (b.read n).1.data = b.data ∧
    (b.read n).1.capacity = b.capacity := by
  have h : b.Wf := ⟨hC, hr, hw⟩
  have hread : b.read n = b.readLoop n [] := rfl
  rw [hread, AudioBuffer.readLoop_eq n b [] h]
  simp only [List.nil_append, List.length_map, List.length_range]
  refine ⟨rfl, trivial, Nat.min_le_left _ _, Nat.min_le_right _ _, ?_, trivial, trivial,
    trivial, trivial⟩
  intro h0
  simp [h0]

/-- Witness for C2: a wrapped buffer of capacity 4 (store `[10, 11, 12, 13]`, read cursor
3, write cursor 2) holding 3 unread samples, and a read of 2. -/
theorem c2_read_returns_available_fifo_witness :
    ((⟨[10, 11, 12, 13], 4, 3, 2⟩ : AudioBuffer Nat).read 2).2
      = (List.range (min 2 (⟨[10, 11, 12, 13], 4, 3, 2⟩ : AudioBuffer Nat).available)).map
          (fun i => ([10, 11, 12, 13] : List Nat).getD ((3 + i) % 4) default) ∧
    ((⟨[10, 11, 12, 13], 4, 3, 2⟩ : AudioBuffer Nat).read 2).2.length ≤ 2 :=
  ⟨(c2_read_returns_available_fifo (⟨[10, 11, 12, 13], 4, 3, 2⟩ : AudioBuffer Nat) 2
      (by decide) (by decide) (by decide)).1,
    (c2_read_returns_available_fifo (⟨[10, 11, 12, 13], 4, 3, 2⟩ : AudioBuffer Nat) 2
      (by decide) (by decide) (by decide)).2.2.1⟩

/-- C3: for a ring buffer of capacity C > 0 that starts empty and every interleaving of
writes and reads during which the count of samples written and not yet read stays below
C, the concatenation of the read results is a prefix of the concatenation of the written
samples (nothing lost, duplicated or reordered); and writing k < C samples into the empty
buffer and then reading k samples returns exactly those samples. -/
theorem c3_ring_fifo_without_overflow {α : Type} [Inhabited α] (C : Nat) (hC : 0 < C) :
    (∀ ops : List (BufferOp α), staysBelow C 0 ops →
      (runOps (AudioBuffer.init C : AudioBuffer α) [] ops).2 <+: writtenBy ops) ∧
    (∀ xs : List α, xs.length < C →
      (((AudioBuffer.init C : AudioBuffer α).write xs).read xs.length).2 = xs) := by
  obtain ⟨w1, w2, w3, w4⟩ := AudioBuffer.init_wf (α := α) C hC
  have hcap : (AudioBuffer.init C : AudioBuffer α).capacity = C := rfl
  constructor
  · intro ops hs
    have hspec := runOps_spec ops (AudioBuffer.init C : AudioBuffer α) [] w1 w2
      (by rw [hcap, w3]; exact hs)
    rw [w4] at hspec
    simp only [List.nil_append] at hspec
    exact ⟨_, hspec⟩
  · intro xs hx
    obtain ⟨i1, i2, i3, i4⟩ :=
      AudioBuffer.write_spec xs (AudioBuffer.init C : AudioBuffer α) w1 w2
    rw [w3, w4, hcap, List.nil_append, Nat.zero_add] at i4
    have hd : xs.length - (C - 1) = 0 := by omega
    rw [hd, List.drop_zero] at i4
    rw [AudioBuffer.read_eq _ _ i1, i4]
    simp

/-- Witness for C3: capacity 4, write two samples, read one, write two more, read three. -/
theorem c3_ring_fifo_without_overflow_witness :
    (runOps (AudioBuffer.init 4 : AudioBuffer Nat) []
        [BufferOp.write [1, 2], BufferOp.read 1, BufferOp.write [3, 4], BufferOp.read 3]).2
      <+: writtenBy
        [BufferOp.write [1, 2], BufferOp.read 1, BufferOp.write [3, 4], BufferOp.read 3] ∧
    (((AudioBuffer.init 4 : AudioBuffer Nat).write [7, 8, 9]).read 3).2 = [7, 8, 9] :=
  ⟨(c3_ring_fifo_without_overflow 4 (by decide)).1
      [BufferOp.write [1, 2], BufferOp.read 1, BufferOp.write [3, 4], BufferOp.read 3]
      (by simp [staysBelow]),
    (c3_ring_fifo_without_overflow 4 (by decide)).2 [7, 8, 9] (by decide)⟩

/-! ## Theorems: CTC decoding -/

theorem ctc_frames_eq {α : Type} [LT α] [DecidableRel (fun (a b : α) => a < b)]
    (vocab_size : Nat) (frames : Nat) :
    ∀ (data : List α) (prev_id : Int) (tokens : List Nat),
      ctc_frames vocab_size frames data prev_id tokens
        = tokens ++ keepLabels prev_id (frameLabels vocab_size frames data) := by
  induction frames with
  | zero => intro data prev_id tokens; simp [ctc_frames, frameLabels, keepLabels]
  | succ frames ih =>
    intro data prev_id tokens
    simp only [ctc_frames, frameLabels, keepLabels]
    rw [ih]
    split <;> simp

theorem removeBlanks_mergeRuns_cons (labels : List Nat) :
    ∀ a : Nat, removeBlanks (mergeRuns (a :: labels))
      = (if a ≠ 0 then [a] else []) ++ keepLabels (a : Int) labels := by
  induction labels with
  | nil =>
    intro a
    by_cases ha : a = 0 <;> simp [mergeRuns, removeBlanks, keepLabels, ha]
  | cons b rest ih =>
    intro a
    have hb := ih b
    by_cases hab : a = b
    · subst hab
      simp only [mergeRuns, if_true, hb, keepLabels]
      simp
    · have hba : ¬ ((b : Int) = (a : Int)) := by
        intro e; exact hab (by exact_mod_cast e.symm)
      have hm : mergeRuns (a :: b :: rest) = a :: mergeRuns (b :: rest) := by
        simp [mergeRuns, hab]
      have hr : ∀ l : List Nat, removeBlanks (a :: l)
          = (if a ≠ 0 then [a] else []) ++ removeBlanks l := by
        intro l
        by_cases ha : a = 0 <;> simp [removeBlanks, ha]
      rw [hm, hr, hb]
      simp only [keepLabels, blank_id]
      by_cases hb0 : b = 0
      · simp [hb0]
      · have hb1 : ¬ ((b : Int) = 0) := by exact_mod_cast hb0
        simp [hb0, hb1, hba]

theorem keepLabels_initial (labels : List Nat) :
    keepLabels (-1) labels = removeBlanks (mergeRuns labels) := by
  cases labels with
  | nil => simp [keepLabels, mergeRuns, removeBlanks]
  | cons a rest =>
    rw [removeBlanks_mergeRuns_cons]
    simp only [keepLabels, blank_id]
    have h1 : ¬ ((a : Int) = -1) := by omega
    by_cases ha : a = 0
    · simp [ha]
    · have ha1 : ¬ ((a : Int) = 0) := by exact_mod_cast ha
      simp [ha, ha1, h1]

/-- C4: the kept-token sequence of `ctc_search` is the per-frame arg-max label sequence
with every run of consecutive equal labels merged to one label and then every blank
(index 0) removed; in particular the arg-max sequence [blank, A, A, blank, A] with
A not blank gives the tokens [A, A]. The vocabulary size may be any number. -/
theorem c4_ctc_tokens_collapse {α : Type} [LT α] [DecidableRel (fun (a b : α) => a < b)]
    (vocab_size speech_length : Nat) (data : List α) :
    ctc_tokens vocab_size speech_length data
      = removeBlanks (mergeRuns (frameLabels vocab_size speech_length data)) ∧
    (∀ A : Nat, A ≠ 0 → frameLabels vocab_size speech_length data = [0, A, A, 0, A] →
      ctc_tokens vocab_size speech_length data = [A, A]) := by
  have h : ctc_tokens vocab_size speech_length data
      = removeBlanks (mergeRuns (frameLabels vocab_size speech_length data)) := by
    unfold ctc_tokens
    rw [ctc_frames_eq, keepLabels_initial, List.nil_append]
  refine ⟨h, ?_⟩
  intro A hA hl
  rw [h, hl]
  have h0 : ¬ (0 = A) := fun e => hA e.symm
  simp [mergeRuns, removeBlanks, hA, h0]

/-- Witness for C4: five frames over a vocabulary of two, with arg-max labels
0, 1, 1, 0, 1. -/
theorem c4_ctc_tokens_collapse_witness :
    frameLabels 2 5 ([5, 0, 0, 5, 0, 5, 5, 0, 0, 5] : List Nat) = [0, 1, 1, 0, 1] ∧
    ctc_tokens 2 5 ([5, 0, 0, 5, 0, 5, 5, 0, 0, 5] : List Nat) = [1, 1] :=
  ⟨by decide,
    (c4_ctc_tokens_collapse 2 5 ([5, 0, 0, 5, 0, 5, 5, 0, 0, 5] : List Nat)).2 1
      (by decide) (by decide)⟩

theorem tokenAt_of_lt (tokens : List Nat) (i : Nat) (h : i < tokens.length) :
    tokenAt tokens i = Except.ok (tokens.getD i 0) := by
  simp [tokenAt, List.getD_eq_getElem?_getD, List.getElem?_eq_getElem h]

theorem tokenAt_of_ge (tokens : List Nat) (i : Nat) (h : tokens.length ≤ i) :
    tokenAt tokens i = Except.error (Fault.tokenIndex i tokens.length) := by
  simp [tokenAt, List.getElem?_eq_none h]

theorem vocabAt_of_lt (vocab : List Str) (k : Nat) (h : k < vocab.length) :
    vocabAt vocab k = Except.ok (vocab.getD k []) := by
  simp [vocabAt, List.getD_eq_getElem?_getD, List.getElem?_eq_getElem h]

theorem vocabAt_not_tokenIndex (vocab : List Str) (k i n : Nat) :
    vocabAt vocab k ≠ Except.error (Fault.tokenIndex i n) := by
  unfold vocabAt
  split <;> simp

theorem getD_mem_lt (tokens : List Nat) (n i : Nat) (h : ∀ t ∈ tokens, t < n)
    (hi : i < tokens.length) : tokens.getD i 0 < n := by
  rw [List.getD_eq_getElem _ _ hi]
  exact h _ (List.getElem_mem hi)

/-- The body of the text loop as a monadic step on a token. -/
theorem ctc_text_loop_eq (vocab : List Str) (tokens : List Nat) (fuel : Nat) :
    ∀ (i : Nat) (text : Str), tokens.length - i ≤ fuel →
      ctc_text_loop vocab tokens fuel i text
        = (tokens.drop i).foldlM
            (fun acc t => (vocabAt vocab t).map (fun word => appendWord acc word)) text := by
  induction fuel with
  | zero =>
    intro i text h
    have hd : tokens.drop i = [] := List.drop_of_length_le (by omega)
    simp [ctc_text_loop, hd, pure, Except.pure]
  | succ fuel ih =>
    intro i text h
    unfold ctc_text_loop
    by_cases hi : i < tokens.length
    · rw [if_pos hi, List.drop_eq_getElem_cons hi, List.foldlM_cons]
      have ht : tokenAt tokens i = Except.ok tokens[i] := by
        simp [tokenAt, List.getElem?_eq_getElem hi]
      rw [ht]
      simp only [bind, Except.bind]
      cases hv : vocabAt vocab tokens[i] with
      | error e => simp only [Except.map]
      | ok word =>
        simp only [Except.map]
        exact ih (i + 1) _ (by omega)
    · rw [if_neg hi]
      have hd : tokens.drop i = [] := List.drop_of_length_le (by omega)
      simp [hd, pure, Except.pure]

theorem ctc_words_eq (vocab : List Str) (tokens : List Nat) :
    ctc_words vocab tokens
      = (tokens.drop 4).foldlM
          (fun acc t => (vocabAt vocab t).map (fun word => appendWord acc word)) [] :=
  ctc_text_loop_eq vocab tokens tokens.length 4 [] (by omega)

theorem foldlM_words_valid (vocab : List Str) (toks : List Nat) :
    ∀ text : Str, (∀ t ∈ toks, t < vocab.length) →
      toks.foldlM (fun acc t => (vocabAt vocab t).map (fun word => appendWord acc word)) text
        = Except.ok ((toks.map (fun t => vocab.getD t [])).foldl appendWord text) := by
  induction toks with
  | nil => intro text _; rfl
  | cons t rest ih =>
    intro text h
    rw [List.foldlM_cons, vocabAt_of_lt vocab t (h t (List.mem_cons_self _ _))]
    show List.foldlM _ (appendWord text (vocab.getD t [])) rest = _
    rw [ih _ (fun u hu => h u (List.mem_cons_of_mem _ hu))]
    rfl

theorem ctc_words_valid (vocab : List Str) (tokens : List Nat)
    (h : ∀ t ∈ tokens, t < vocab.length) :
    ctc_words vocab tokens
      = Except.ok (wordsText ((tokens.drop 4).map (fun t => vocab.getD t []))) := by
  rw [ctc_words_eq, foldlM_words_valid vocab _ []
    (fun t ht => h t (List.mem_of_mem_drop ht))]
  rfl

theorem ctc_tags_valid (vocab : List Str) (tokens : List Nat) (h4 : 4 ≤ tokens.length)
    (h : ∀ t ∈ tokens, t < vocab.length) :
    ctc_tags vocab tokens = Except.ok
      { str_lang := vocab.getD (tokens.getD 0 0) [],
        str_emo := vocab.getD (tokens.getD 1 0) [],
        str_event := vocab.getD (tokens.getD 2 0) [],
        str_itn := vocab.getD (tokens.getD 3 0) [] } := by
  unfold ctc_tags
  rw [if_pos (by omega)]
  rw [tokenAt_of_lt tokens 0 (by omega), tokenAt_of_lt tokens 1 (by omega),
    tokenAt_of_lt tokens 2 (by omega), tokenAt_of_lt tokens 3 (by omega)]
  have v0 := vocabAt_of_lt vocab _ (getD_mem_lt tokens _ 0 h (by omega))
  have v1 := vocabAt_of_lt vocab _ (getD_mem_lt tokens _ 1 h (by omega))
  have v2 := vocabAt_of_lt vocab _ (getD_mem_lt tokens _ 2 h (by omega))
  have v3 := vocabAt_of_lt vocab _ (getD_mem_lt tokens _ 3 h (by omega))
  simp only [bind, Except.bind, v0, v1, v2, v3]
  rfl

theorem ctc_punct_cases (tags : CtcTags) (text : Str) :
    ctc_punct tags text
      = if tags.str_itn = withitn ∧ tags.str_lang ≠ zhTag then text ++ [46] else text := by
  unfold ctc_punct
  by_cases h1 : tags.str_itn = withitn <;> by_cases h2 : tags.str_lang = zhTag <;>
    simp [h1, h2]

theorem str_find_some_of_infix (pat : Str) (word : Str) :
    pat <:+: word → ∃ p, str_find word pat = some p := by
  induction word with
  | nil =>
    intro h
    have : pat = [] := List.eq_nil_of_infix_nil h
    exact ⟨0, by simp [str_find, this]⟩
  | cons c cs ih =>
    intro h
    unfold str_find
    by_cases hp : pat.isPrefixOf (c :: cs) = true
    · exact ⟨0, by rw [if_pos hp]⟩
    · rw [if_neg hp]
      rcases List.infix_cons_iff.mp h with h1 | h2
      · exact absurd (List.isPrefixOf_iff_prefix.mpr h1) hp
      · obtain ⟨p, hp2⟩ := ih h2
        exact ⟨p + 1, by simp [hp2]⟩

theorem str_find_infix_of_some (pat : Str) (word : Str) :
    ∀ p, str_find word pat = some p → pat <:+: word := by
  induction word with
  | nil =>
    intro p h
    unfold str_find at h
    by_cases hp : pat = []
    · rw [hp]
    · rw [if_neg hp] at h; exact absurd h (by simp)
  | cons c cs ih =>
    intro p h
    unfold str_find at h
    by_cases hp : pat.isPrefixOf (c :: cs) = true
    · exact (List.isPrefixOf_iff_prefix.mp hp).isInfix
    · rw [if_neg hp] at h
      cases hq : str_find cs pat with
      | none => rw [hq] at h; exact absurd h (by simp)
      | some q => exact List.infix_cons (ih q hq)

theorem str_find_none_iff (pat word : Str) :
    str_find word pat = none ↔ ¬ (pat <:+: word) := by
  constructor
  · intro h hin
    obtain ⟨p, hp⟩ := str_find_some_of_infix pat word hin
    rw [h] at hp
    exact absurd hp (by simp)
  · intro h
    cases hq : str_find word pat with
    | none => rfl
    | some q => exact absurd (str_find_infix_of_some pat word q hq) h

theorem appendWord_marker_first (text rest : Str) :
    appendWord text (unicodeChar ++ rest) = text ++ [32] ++ rest := by
  have h : str_find (unicodeChar ++ rest) unicodeChar = some 0 := by
    simp [unicodeChar, str_find, List.isPrefixOf]
  unfold appendWord
  rw [h]
  simp [unicodeChar]

theorem appendWord_no_marker (text word : Str) (h : ¬ (unicodeChar <:+: word)) :
    appendWord text word = text ++ word := by
  unfold appendWord
  rw [(str_find_none_iff unicodeChar word).mpr h]

/-! ### Claims C5 to C9 -/

/-- C5 at its failing input: three frames over a vocabulary of four whose arg-max labels
are 1, 2, 3 give a kept-token sequence of 3 entries (fewer than 4); the metadata step
takes the branch `tokens.size() >= 3` and reads `tokens[3]`, so the tags are not left
empty. With fewer than 3 tokens all four tags are empty strings. -/
theorem c5_three_tokens_tags_not_empty :
    ctc_tokens 4 3 ([0, 9, 0, 0, 0, 0, 9, 0, 0, 0, 0, 9] : List Nat) = [1, 2, 3] ∧
    ctc_tags [[48], [49], [50], [51]]
        (ctc_tokens 4 3 ([0, 9, 0, 0, 0, 0, 9, 0, 0, 0, 0, 9] : List Nat))
      = Except.error (Fault.tokenIndex 3 3) ∧
    ctc_tags [[48], [49], [50], [51]]
        (ctc_tokens 4 3 ([0, 9, 0, 0, 0, 0, 9, 0, 0, 0, 0, 9] : List Nat))
      ≠ Except.ok { str_lang := [], str_emo := [], str_event := [], str_itn := [] } ∧
    (∀ (vocab : List Str) (tokens : List Nat), tokens.length < 3 →
      ctc_tags vocab tokens
        = Except.ok { str_lang := [], str_emo := [], str_event := [], str_itn := [] }) := by
  refine ⟨by decide, by decide, by decide, ?_⟩
  intro vocab tokens h
  unfold ctc_tags
  rw [if_neg (by omega)]
  rfl

/-- C6: when the kept-token sequence has at least 4 entries, all of them valid vocabulary
indices, `ctc_search` returns vocab[t0] + vocab[t1] + vocab[t2] + " " + text, where text
is the text of the words of the tokens at positions 4 and later followed by nothing or by
one period. -/
theorem c6_ctc_search_output_layout {α : Type} [LT α] [DecidableRel (fun (a b : α) => a < b)]
    (vocab : List Str) (data : List α) (speech_length vocab_size : Nat)
    (h4 : 4 ≤ (ctc_tokens vocab_size speech_length data).length)
    (hvalid : ∀ t ∈ ctc_tokens vocab_size speech_length data, t < vocab.length) :
    ∃ period : Str, (period = [] ∨ period = [46]) ∧
      ctc_search vocab data speech_length vocab_size
        = Except.ok
            (vocab.getD ((ctc_tokens vocab_size speech_length data).getD 0 0) []
              ++ vocab.getD ((ctc_tokens vocab_size speech_length data).getD 1 0) []
              ++ vocab.getD ((ctc_tokens vocab_size speech_length data).getD 2 0) []
              ++ [32]
              ++ (wordsText (((ctc_tokens vocab_size speech_length data).drop 4).map
                    (fun t => vocab.getD t [])) ++ period)) := by
  unfold ctc_search ctc_decode
  generalize ctc_tokens vocab_size speech_length data = tokens at h4 hvalid
  rw [ctc_tags_valid vocab tokens h4 hvalid, ctc_words_valid vocab tokens hvalid]
  simp only [bind, Except.bind, pure, Except.pure, ctc_punct_cases]
  split
  · exact ⟨[46], Or.inr rfl, rfl⟩
  · exact ⟨[], Or.inl rfl, by simp⟩

/-- Witness for C6: six frames whose arg-max labels are 1, 2, 3, 4, 5, 6 over a vocabulary
of seven strings; the words of tokens 5 and 6 are "▁A" and "B". -/
theorem c6_ctc_search_output_layout_witness :
    ∃ period : Str, (period = [] ∨ period = [46]) ∧
      ctc_search [[48], [49], [50], [51], [52], [226, 150, 129, 65], [66]]
          ([0, 9, 0, 0, 0, 0, 0,  0, 0, 9, 0, 0, 0, 0,  0, 0, 0, 9, 0, 0, 0,
            0, 0, 0, 0, 9, 0, 0,  0, 0, 0, 0, 0, 9, 0,  0, 0, 0, 0, 0, 0, 9] : List Nat) 6 7
        = Except.ok ([49] ++ [50] ++ [51] ++ [32] ++ ([32, 65, 66] ++ period)) :=
  c6_ctc_search_output_layout [[48], [49], [50], [51], [52], [226, 150, 129, 65], [66]]
    ([0, 9, 0, 0, 0, 0, 0,  0, 0, 9, 0, 0, 0, 0,  0, 0, 0, 9, 0, 0, 0,
      0, 0, 0, 0, 9, 0, 0,  0, 0, 0, 0, 0, 9, 0,  0, 0, 0, 0, 0, 0, 9] : List Nat) 6 7
    (by decide) (by decide)

/-- C7: in the text loop of `ctc_search`, a text token (position 4 or later) whose
vocabulary string begins with the marker "▁" adds one space followed by the string
without the marker, and a text token whose string does not contain the marker adds the
string unchanged, with no separator. Here `text` is the text built from `tokens` and the
token `k` is processed next. -/
theorem c7_text_token_appended (vocab : List Str) (tokens : List Nat) (k : Nat) (text : Str)
    (h4 : 4 ≤ tokens.length) (hk : k < vocab.length)
    (hprev : ctc_words vocab tokens = Except.ok text) :
    (∀ rest : Str, vocab.getD k [] = unicodeChar ++ rest →
      ctc_words vocab (tokens ++ [k]) = Except.ok (text ++ [32] ++ rest)) ∧
    (¬ (unicodeChar <:+: vocab.getD k []) →
      ctc_words vocab (tokens ++ [k]) = Except.ok (text ++ vocab.getD k [])) := by
  have hstep : ctc_words vocab (tokens ++ [k])
      = Except.ok (appendWord text (vocab.getD k [])) := by
    rw [ctc_words_eq] at hprev ⊢
    rw [List.drop_append_of_le_length h4, List.foldlM_append, hprev]
    simp only [bind, Except.bind, List.foldlM_cons, List.foldlM_nil,
      vocabAt_of_lt vocab k hk, Except.map, pure, Except.pure]
  constructor
  · intro rest hrest
    rw [hstep, hrest, appendWord_marker_first]
  · intro hno
    rw [hstep, appendWord_no_marker _ _ hno]

/-- Witness for C7: after the four metadata tokens, the token of "▁A" adds " A" and the
token of "B" adds "B". -/
theorem c7_text_token_appended_witness :
    ctc_words [[48], [49], [50], [51], [226, 150, 129, 65], [66]] ([0, 1, 2, 3] ++ [4])
      = Except.ok ([] ++ [32] ++ [65]) ∧
    ctc_words [[48], [49], [50], [51], [226, 150, 129, 65], [66]] ([0, 1, 2, 3, 4] ++ [5])
      = Except.ok ([32, 65] ++ ([[48], [49], [50], [51], [226, 150, 129, 65], [66]] :
          List Str).getD 5 []) :=
  ⟨(c7_text_token_appended [[48], [49], [50], [51], [226, 150, 129, 65], [66]]
      [0, 1, 2, 3] 4 [] (by decide) (by decide) (by decide)).1 [65] (by decide),
    (c7_text_token_appended [[48], [49], [50], [51], [226, 150, 129, 65], [66]]
      [0, 1, 2, 3, 4] 5 [32, 65] (by decide) (by decide) (by decide)).2 (by decide)⟩

/-- C8: `ctc_search` appends exactly one "." to the decoded text if and only if the
inverse-text-normalization tag equals "<|withitn|>" and the language tag is not "<|zh|>";
in every other case the text is the text of the loop with nothing appended. Here `tags`
and `words` are the results of the metadata step and of the text loop. -/
theorem c8_terminal_period {α : Type} [LT α] [DecidableRel (fun (a b : α) => a < b)]
    (vocab : List Str) (data : List α) (speech_length vocab_size : Nat)
    (tags : CtcTags) (words : Str)
    (htags : ctc_tags vocab (ctc_tokens vocab_size speech_length data) = Except.ok tags)
    (hwords : ctc_words vocab (ctc_tokens vocab_size speech_length data) = Except.ok words) :
    ctc_search vocab data speech_length vocab_size
      = Except.ok (tags.str_lang ++ tags.str_emo ++ tags.str_event ++ [32]
          ++ ctc_punct tags words) ∧
    ((tags.str_itn = withitn ∧ tags.str_lang ≠ zhTag) → ctc_punct tags words = words ++ [46]) ∧
    (¬ (tags.str_itn = withitn ∧ tags.str_lang ≠ zhTag) → ctc_punct tags words = words) ∧
    (ctc_punct tags words = words ++ [46]
      ↔ (tags.str_itn = withitn ∧ tags.str_lang ≠ zhTag)) := by
  refine ⟨?_, ?_, ?_, ?_⟩
  · unfold ctc_search ctc_decode
    rw [htags, hwords]
    rfl
  · intro h; rw [ctc_punct_cases, if_pos h]
  · intro h; rw [ctc_punct_cases, if_neg h]
  · rw [ctc_punct_cases]
    constructor
    · intro h
      by_contra hc
      rw [if_neg hc] at h
      have := congrArg List.length h
      simp at this
    · intro h; rw [if_pos h]

/-- Witness for C8: five frames with arg-max labels 1, 2, 3, 4, 5, where vocab[1] is "1",
vocab[4] is "<|withitn|>" and vocab[5] is "B": the result ends with "B.". -/
theorem c8_terminal_period_witness :
    ctc_search [[48], [49], [50], [51], withitn, [66]]
        ([0, 9, 0, 0, 0, 0,  0, 0, 9, 0, 0, 0,  0, 0, 0, 9, 0, 0,
          0, 0, 0, 0, 9, 0,  0, 0, 0, 0, 0, 9] : List Nat) 5 6
      = Except.ok ([49] ++ [50] ++ [51] ++ [32]
          ++ ctc_punct { str_lang := [49], str_emo := [50], str_event := [51],
                         str_itn := withitn } [66]) ∧
    ctc_punct { str_lang := [49], str_emo := [50], str_event := [51], str_itn := withitn }
        [66] = [66] ++ [46] :=
  ⟨(c8_terminal_period [[48], [49], [50], [51], withitn, [66]]
      ([0, 9, 0, 0, 0, 0,  0, 0, 9, 0, 0, 0,  0, 0, 0, 9, 0, 0,
        0, 0, 0, 0, 9, 0,  0, 0, 0, 0, 0, 9] : List Nat) 5 6
      { str_lang := [49], str_emo := [50], str_event := [51], str_itn := withitn } [66]
      (by decide) (by decide)).1,
    (c8_terminal_period [[48], [49], [50], [51], withitn, [66]]
      ([0, 9, 0, 0, 0, 0,  0, 0, 9, 0, 0, 0,  0, 0, 0, 9, 0, 0,
        0, 0, 0, 0, 9, 0,  0, 0, 0, 0, 0, 9] : List Nat) 5 6
      { str_lang := [49], str_emo := [50], str_event := [51], str_itn := withitn } [66]
      (by decide) (by decide)).2.1 (by decide)⟩

/-- C9: when the kept-token sequence has exactly 3 entries the metadata step of
`ctc_search` fails, and with three valid vocabulary indices it fails at the read of
position 3 of the 3-element token sequence; for a token sequence of any other length
no read of the token sequence by the metadata step is out of bounds. -/
theorem c9_metadata_reads_past_three_tokens (vocab : List Str) (tokens : List Nat) :
    (tokens.length = 3 → ∃ f, ctc_tags vocab tokens = Except.error f) ∧
    (tokens.length = 3 → (∀ t ∈ tokens, t < vocab.length) →
      ctc_tags vocab tokens = Except.error (Fault.tokenIndex 3 3)) ∧
    (tokens.length ≠ 3 →
      ∀ i n, ctc_tags vocab tokens ≠ Except.error (Fault.tokenIndex i n)) := by
  have hthree : tokens.length = 3 → (∀ t ∈ tokens, t < vocab.length) →
      ctc_tags vocab tokens = Except.error (Fault.tokenIndex 3 3) := by
    intro h3 hvalid
    unfold ctc_tags
    rw [if_pos (by omega)]
    rw [tokenAt_of_lt tokens 0 (by omega), tokenAt_of_lt tokens 1 (by omega),
      tokenAt_of_lt tokens 2 (by omega), tokenAt_of_ge tokens 3 (by omega), h3]
    have v0 := vocabAt_of_lt vocab _ (getD_mem_lt tokens _ 0 hvalid (by omega))
    have v1 := vocabAt_of_lt vocab _ (getD_mem_lt tokens _ 1 hvalid (by omega))
    have v2 := vocabAt_of_lt vocab _ (getD_mem_lt tokens _ 2 hvalid (by omega))
    simp only [bind, Except.bind, v0, v1, v2]
  refine ⟨?_, hthree, ?_⟩
  · intro h3
    unfold ctc_tags
    rw [if_pos (by omega)]
    rw [tokenAt_of_lt tokens 0 (by omega), tokenAt_of_lt tokens 1 (by omega),
      tokenAt_of_lt tokens 2 (by omega), tokenAt_of_ge tokens 3 (by omega)]
    simp only [bind, Except.bind]
    cases vocabAt vocab (tokens.getD 0 0) with
    | error e => exact ⟨e, rfl⟩
    | ok s0 =>
      cases vocabAt vocab (tokens.getD 1 0) with
      | error e => exact ⟨e, rfl⟩
      | ok s1 =>
        cases vocabAt vocab (tokens.getD 2 0) with
        | error e => exact ⟨e, rfl⟩
        | ok s2 => exact ⟨_, rfl⟩
  · intro hne i n
    unfold ctc_tags
    by_cases hlt : tokens.length ≥ 3
    · rw [if_pos hlt]
      rw [tokenAt_of_lt tokens 0 (by omega), tokenAt_of_lt tokens 1 (by omega),
        tokenAt_of_lt tokens 2 (by omega), tokenAt_of_lt tokens 3 (by omega)]
      simp only [bind, Except.bind]
      have n0 := vocabAt_not_tokenIndex vocab (tokens.getD 0 0) i n
      have n1 := vocabAt_not_tokenIndex vocab (tokens.getD 1 0) i n
      have n2 := vocabAt_not_tokenIndex vocab (tokens.getD 2 0) i n
      have n3 := vocabAt_not_tokenIndex vocab (tokens.getD 3 0) i n
      cases h0 : vocabAt vocab (tokens.getD 0 0) with
      | error e => rw [h0] at n0; simpa using n0
      | ok s0 =>
        cases h1 : vocabAt vocab (tokens.getD 1 0) with
        | error e => rw [h1] at n1; simpa using n1
        | ok s1 =>
          cases h2 : vocabAt vocab (tokens.getD 2 0) with
          | error e => rw [h2] at n2; simpa using n2
          | ok s2 =>
            cases h3 : vocabAt vocab (tokens.getD 3 0) with
            | error e => rw [h3] at n3; simpa using n3
            | ok s3 => simp [pure, Except.pure]
    · rw [if_neg hlt]
      simp [pure, Except.pure]

/-- Witness for C9: the three tokens 1, 2, 3 over a vocabulary of four strings. -/
theorem c9_metadata_reads_past_three_tokens_witness :
    ctc_tags [[48], [49], [50], [51]] [1, 2, 3] = Except.error (Fault.tokenIndex 3 3) ∧
    (∀ i n, ctc_tags [[48], [49], [50], [51]] [1, 2, 3, 1]
      ≠ Except.error (Fault.tokenIndex i n)) :=
  ⟨(c9_metadata_reads_past_three_tokens [[48], [49], [50], [51]] [1, 2, 3]).2.1
      (by decide) (by decide),
    (c9_metadata_reads_past_three_tokens [[48], [49], [50], [51]] [1, 2, 3, 1]).2.2
      (by decide)⟩

/-! ## Theorems: low-frame-rate stacking and normalisation -/

theorem pad_front_eq {α : Type} (count : Nat) :
    ∀ (first : List α) (rest : List (List α)),
      pad_front count (first :: rest) = some (List.replicate count first ++ first :: rest) := by
  induction count with
  | zero => intro first rest; simp [pad_front]
  | succ count ih =>
    intro first rest
    simp only [pad_front, List.getElem?_cons_zero]
    rw [ih first (first :: rest), List.replicate_succ']
    simp

theorem append_frames_eq {α : Type} (features : List (List α)) (idxs : List Nat) :
    ∀ p : List α, (∀ idx ∈ idxs, idx < features.length) →
      append_frames features idxs p
        = some (p ++ (idxs.map (fun idx => features.getD idx [])).flatten) := by
  induction idxs with
  | nil => intro p _; simp [append_frames]
  | cons idx rest ih =>
    intro p h
    have hlt : idx < features.length := h idx (List.mem_cons_self _ _)
    simp only [append_frames, List.getElem?_eq_getElem hlt]
    rw [ih _ (fun k hk => h k (List.mem_cons_of_mem _ hk))]
    simp [List.getD_eq_getElem?_getD, List.getElem?_eq_getElem hlt]

theorem lfr_window_eq {α : Type} (lfr_m lfr_n : Nat) (P : List (List α)) (i : Nat)
    (hi : i * lfr_n < P.length) :
    lfr_window lfr_m lfr_n P.length P i = some (stackedWindow lfr_m lfr_n P i) := by
  unfold lfr_window stackedWindow
  by_cases hfull : lfr_m + i * lfr_n ≤ P.length
  · rw [if_pos hfull, append_frames_eq]
    · simp only [List.nil_append, List.map_map]
      congr 2
      apply List.map_congr_left
      intro j hj
      have hj2 := List.mem_range.mp hj
      simp only [Function.comp]
      congr 1
      omega
    · intro idx hidx
      simp only [List.mem_map, List.mem_range] at hidx
      obtain ⟨j, hj, rfl⟩ := hidx
      omega
  · rw [if_neg hfull, if_neg (by omega), append_frames_eq]
    · simp only [List.nil_append]
      rw [append_frames_eq]
      · have hm : lfr_m = (P.length - i * lfr_n) + (lfr_m - (P.length - i * lfr_n)) := by
          omega
        rw [hm, List.range_add, List.map_append, List.flatten_append]
        simp only [List.map_map, List.map_replicate]
        congr 2
        · congr 1
          apply List.map_congr_left
          intro j hj
          have hj2 := List.mem_range.mp hj
          simp only [Function.comp]
          congr 1
          omega
        · congr 1
          rw [← hm]
          apply List.ext_getElem
          · simp
          · intro k h1 h2
            simp only [List.getElem_replicate, List.getElem_map, List.getElem_range,
              Function.comp]
            congr 1
            omega
      · intro idx hidx
        rw [List.mem_replicate] at hidx
        omega
    · intro idx hidx
      simp only [List.mem_map, List.mem_range] at hidx
      obtain ⟨j, hj, rfl⟩ := hidx
      omega

theorem lfr_windows_eq {α : Type} (lfr_m lfr_n : Nat) (P : List (List α)) (count : Nat) :
    ∀ (i : Nat) (out_feats : List (List α)),
      (∀ k, k < count → (i + k) * lfr_n < P.length) →
      lfr_windows lfr_m lfr_n P.length P count i out_feats
        = some (out_feats
            ++ (List.range count).map (fun k => stackedWindow lfr_m lfr_n P (i + k))) := by
  induction count with
  | zero => intro i out_feats _; simp [lfr_windows]
  | succ count ih =>
    intro i out_feats h
    have h0 := h 0 (by omega)
    simp only [Nat.add_zero] at h0
    simp only [lfr_windows, lfr_window_eq lfr_m lfr_n P i h0]
    rw [ih (i + 1) _ (fun k hk => by
      have := h (k + 1) (by omega)
      rwa [show i + 1 + k = i + (k + 1) by omega])]
    rw [List.range_succ_eq_map, List.map_cons, List.map_map, List.append_assoc]
    simp only [List.singleton_append, Nat.add_zero]
    congr 3
    apply List.map_congr_left
    intro k _
    simp only [Function.comp, Nat.succ_eq_add_one]
    congr 1
    omega

theorem lfr_count_mul_lt (T lfr_n k : Nat) (hn : 0 < lfr_n) (hk : k < lfr_count T lfr_n) :
    k * lfr_n < T := by
  unfold lfr_count at hk
  have h1 : (k + 1) * lfr_n ≤ T + lfr_n - 1 := (Nat.le_div_iff_mul_le hn).mp hk
  rw [Nat.succ_mul] at h1
  omega

theorem paddedInput_length {α : Type} (lfr_m : Nat) (features : List (List α)) :
    (paddedInput lfr_m features).length = features.length + (lfr_m - 1) / 2 := by
  simp [paddedInput, Nat.add_comm]

theorem lfr_stack_eq {α : Type} (lfr_m lfr_n : Nat) (features : List (List α))
    (hT : 1 ≤ features.length) (hn : 1 ≤ lfr_n) :
    lfr_stack lfr_m lfr_n features
      = some ((List.range (lfr_count features.length lfr_n)).map
          (fun i => stackedWindow lfr_m lfr_n (paddedInput lfr_m features) i)) := by
  cases features with
  | nil => simp at hT
  | cons first rest =>
    unfold lfr_stack
    rw [if_neg (by omega)]
    simp only [pad_front_eq]
    have hP : paddedInput lfr_m (first :: rest)
        = List.replicate ((lfr_m - 1) / 2) first ++ first :: rest := by
      simp [paddedInput]
    have hlen : (first :: rest).length + (lfr_m - 1) / 2
        = (paddedInput lfr_m (first :: rest)).length := by
      rw [paddedInput_length]
    rw [← hP, hlen, lfr_windows_eq]
    · simp
    · intro k hk
      have := lfr_count_mul_lt _ _ k (by omega) hk
      rw [paddedInput_length, Nat.zero_add]
      omega

theorem lfr_count_eq_ceil (T lfr_n : Nat) (hn : 1 ≤ lfr_n) :
    lfr_count T lfr_n = ⌈(T : ℚ) / (lfr_n : ℚ)⌉₊ := by
  symm
  have hnq : (0 : ℚ) < (lfr_n : ℚ) := by exact_mod_cast hn
  have hdm := Nat.div_add_mod (T + lfr_n - 1) lfr_n
  have hml := Nat.mod_lt (T + lfr_n - 1) hn
  unfold lfr_count
  generalize (T + lfr_n - 1) / lfr_n = q at hdm
  generalize (T + lfr_n - 1) % lfr_n = r at hdm hml
  apply le_antisymm
  · rw [Nat.ceil_le, div_le_iff₀ hnq]
    have : T ≤ q * lfr_n := by
      rw [Nat.mul_comm] at hdm
      omega
    exact_mod_cast this
  · by_contra hlt
    push_neg at hlt
    have h1 : (T : ℚ) / (lfr_n : ℚ) ≤ ((⌈(T : ℚ) / (lfr_n : ℚ)⌉₊ : Nat) : ℚ) := Nat.le_ceil _
    rw [div_le_iff₀ hnq] at h1
    have h2 : T ≤ ⌈(T : ℚ) / (lfr_n : ℚ)⌉₊ * lfr_n := by exact_mod_cast h1
    generalize ⌈(T : ℚ) / (lfr_n : ℚ)⌉₊ = c at hlt h2
    have h3 : (c + 1) * lfr_n ≤ q * lfr_n := Nat.mul_le_mul_right _ hlt
    rw [Nat.succ_mul] at h3
    rw [Nat.mul_comm] at hdm
    omega

theorem stackedWindow_length {α : Type} (lfr_m lfr_n d : Nat) (P : List (List α)) (i : Nat)
    (hP : 0 < P.length) (hd : ∀ f ∈ P, f.length = d) :
    (stackedWindow lfr_m lfr_n P i).length = lfr_m * d := by
  unfold stackedWindow
  rw [List.length_flatten, List.map_map]
  have hconst : List.map (List.length ∘ fun j => P.getD (min (i * lfr_n + j) (P.length - 1)) [])
      (List.range lfr_m) = List.replicate lfr_m d := by
    apply List.ext_getElem
    · simp
    · intro k h1 h2
      simp only [List.getElem_map, List.getElem_range, Function.comp, List.getElem_replicate]
      have hlt : min (i * lfr_n + k) (P.length - 1) < P.length := by omega
      rw [List.getD_eq_getElem _ _ hlt]
      exact hd _ (List.getElem_mem hlt)
  rw [hconst, List.sum_replicate]
  simp

theorem paddedInput_frames {α : Type} (lfr_m d : Nat) (features : List (List α))
    (hT : 1 ≤ features.length) (hd : ∀ f ∈ features, f.length = d) :
    ∀ f ∈ paddedInput lfr_m features, f.length = d := by
  intro f hf
  cases features with
  | nil => simp at hT
  | cons first rest =>
    simp only [paddedInput, List.headD_cons, List.mem_append] at hf
    rcases hf with h1 | h2
    · rw [(List.mem_replicate.mp h1).2]
      exact hd first (List.mem_cons_self _ _)
    · exact hd f h2

theorem cmvn_loop_length {α : Type} [Add α] [Mul α] (means_list vars_list : List α)
    (count : Nat) :
    ∀ (j : Nat) (out_feat result : List α),
      cmvn_loop means_list vars_list count j out_feat = some result →
      result.length = out_feat.length := by
  induction count with
  | zero =>
    intro j out_feat result h
    simp only [cmvn_loop, Option.some.injEq] at h
    rw [← h]
  | succ count ih =>
    intro j out_feat result h
    unfold cmvn_loop at h
    split at h
    · rw [ih _ _ _ h, List.length_set]
    · exact absurd h (by simp)

theorem cmvn_loop_some {α : Type} [Add α] [Mul α] (means_list vars_list : List α)
    (count : Nat) :
    ∀ (j : Nat) (out_feat : List α), j + count ≤ out_feat.length →
      j + count ≤ means_list.length → j + count ≤ vars_list.length →
      ∃ result, cmvn_loop means_list vars_list count j out_feat = some result := by
  induction count with
  | zero => intro j out_feat _ _ _; exact ⟨out_feat, rfl⟩
  | succ count ih =>
    intro j out_feat h1 h2 h3
    unfold cmvn_loop
    rw [List.getElem?_eq_getElem (by omega : j < out_feat.length),
      List.getElem?_eq_getElem (by omega : j < means_list.length),
      List.getElem?_eq_getElem (by omega : j < vars_list.length)]
    exact ih (j + 1) _ (by rw [List.length_set]; omega) (by omega) (by omega)

theorem cmvn_frames_length {α : Type} [Add α] [Mul α] (means_list vars_list : List α)
    (out_feats : List (List α)) :
    ∀ result, cmvn_frames means_list vars_list out_feats = some result →
      result.length = out_feats.length := by
  induction out_feats with
  | nil =>
    intro result h
    simp only [cmvn_frames, Option.some.injEq] at h
    rw [← h]
  | cons w rest ih =>
    intro result h
    unfold cmvn_frames at h
    split at h
    · split at h
      · rename_i others hothers
        simp only [Option.some.injEq] at h
        rw [← h, List.length_cons, List.length_cons, ih others hothers]
      · exact absurd h (by simp)
    · exact absurd h (by simp)

theorem cmvn_frames_some {α : Type} [Add α] [Mul α] (means_list vars_list : List α)
    (out_feats : List (List α)) (hv : means_list.length ≤ vars_list.length)
    (hw : ∀ w ∈ out_feats, means_list.length ≤ w.length) :
    ∃ result, cmvn_frames means_list vars_list out_feats = some result := by
  induction out_feats with
  | nil => exact ⟨[], rfl⟩
  | cons w rest ih =>
    obtain ⟨r1, h1⟩ := cmvn_loop_some means_list vars_list means_list.length 0 w
      (by have := hw w (List.mem_cons_self _ _); omega) (by omega) (by omega)
    obtain ⟨r2, h2⟩ := ih (fun u hu => hw u (List.mem_cons_of_mem _ hu))
    exact ⟨r1 :: r2, by simp [cmvn_frames, cmvn_frame, h1, h2]⟩

/-! ### Claims C10 and C11 -/

/-- C10: for T >= 1 input frames and lfr_n >= 1 (any lfr_m), the stacking of
`normalize_features` produces exactly ceil(T / lfr_n) windows; the normalisation keeps
that count whenever the function returns, and the function does return when the input
frames have one common length d and the statistics fit the windows
(means_list.size() at most lfr_m * d and at most vars_list.size()). -/
theorem c10_normalize_features_frame_count {α : Type} [Add α] [Mul α] (lfr_m lfr_n : Nat)
    (means_list vars_list : List α) (features : List (List α))
    (hT : 1 ≤ features.length) (hn : 1 ≤ lfr_n) :
    (∃ stacked, lfr_stack lfr_m lfr_n features = some stacked ∧
      stacked.length = ⌈(features.length : ℚ) / (lfr_n : ℚ)⌉₊) ∧
    (∀ out, normalize_features lfr_m lfr_n means_list vars_list features = some out →
      out.length = ⌈(features.length : ℚ) / (lfr_n : ℚ)⌉₊) ∧
    (∀ d : Nat, (∀ f ∈ features, f.length = d) → means_list.length ≤ lfr_m * d →
      means_list.length ≤ vars_list.length →
      ∃ out, normalize_features lfr_m lfr_n means_list vars_list features = some out ∧
        out.length = ⌈(features.length : ℚ) / (lfr_n : ℚ)⌉₊) := by
  have hstack := lfr_stack_eq lfr_m lfr_n features hT hn
  have hceil := lfr_count_eq_ceil features.length lfr_n hn
  have hall : ∀ out, normalize_features lfr_m lfr_n means_list vars_list features = some out →
      out.length = ⌈(features.length : ℚ) / (lfr_n : ℚ)⌉₊ := by
    intro out hout
    unfold normalize_features at hout
    rw [hstack] at hout
    simp only at hout
    rw [cmvn_frames_length _ _ _ out hout, ← hceil]
    simp
  refine ⟨⟨_, hstack, by rw [← hceil]; simp⟩, hall, ?_⟩
  intro d hd hm hv
  have hP := paddedInput_frames lfr_m d features hT hd
  have hPlen : 0 < (paddedInput lfr_m features).length := by
    rw [paddedInput_length]; omega
  obtain ⟨out, hout⟩ := cmvn_frames_some means_list vars_list
    ((List.range (lfr_count features.length lfr_n)).map
      (fun i => stackedWindow lfr_m lfr_n (paddedInput lfr_m features) i)) hv
    (by
      intro w hw
      simp only [List.mem_map, List.mem_range] at hw
      obtain ⟨i, _, rfl⟩ := hw
      rw [stackedWindow_length lfr_m lfr_n d _ i hPlen hP]
      exact hm)
  have hnf : normalize_features lfr_m lfr_n means_list vars_list features = some out := by
    unfold normalize_features
    rw [hstack]
    exact hout
  exact ⟨out, hnf, hall out hnf⟩

/-- Witness for C10: 8 one-dimensional frames with lfr_m = 7, lfr_n = 6 and seven
statistics give ceil(8 / 6) windows. -/
theorem c10_normalize_features_frame_count_witness :
    ∃ out, normalize_features 7 6 [0, 0, 0, 0, 0, 0, 0] [1, 1, 1, 1, 1, 1, 1]
        ([[1], [2], [3], [4], [5], [6], [7], [8]] : List (List Int)) = some out ∧
      out.length
        = ⌈((([[1], [2], [3], [4], [5], [6], [7], [8]] : List (List Int)).length : Nat) : ℚ)
            / ((6 : Nat) : ℚ)⌉₊ :=
  (c10_normalize_features_frame_count 7 6 [0, 0, 0, 0, 0, 0, 0] [1, 1, 1, 1, 1, 1, 1]
    ([[1], [2], [3], [4], [5], [6], [7], [8]] : List (List Int))
    (by decide) (by decide)).2.2 1 (by decide) (by decide) (by decide)

/-- C11: for T >= 1 input frames that all have length mel_bins (and lfr_n >= 1), before
the affine normalisation output window i of `normalize_features` is the concatenation
for j = 0 .. lfr_m - 1 of P[min(i * lfr_n + j, |P| - 1)], where P is the input with its
first frame repeated (lfr_m - 1) / 2 times in front; every window has length
lfr_m * mel_bins. -/
theorem c11_stacked_window_contents {α : Type} (lfr_m lfr_n mel_bins : Nat)
    (features : List (List α)) (hT : 1 ≤ features.length) (hn : 1 ≤ lfr_n)
    (hd : ∀ f ∈ features, f.length = mel_bins) :
    pad_front ((lfr_m - 1) / 2) features = some (paddedInput lfr_m features) ∧
    ∃ stacked, lfr_stack lfr_m lfr_n features = some stacked ∧
      stacked.length = lfr_count features.length lfr_n ∧
      ∀ i, i < stacked.length →
        stacked.getD i [] = stackedWindow lfr_m lfr_n (paddedInput lfr_m features) i ∧
        (stacked.getD i []).length = lfr_m * mel_bins := by
  have hstack := lfr_stack_eq lfr_m lfr_n features hT hn
  have hP := paddedInput_frames lfr_m mel_bins features hT hd
  have hPlen : 0 < (paddedInput lfr_m features).length := by
    rw [paddedInput_length]; omega
  constructor
  · cases features with
    | nil => simp at hT
    | cons first rest => rw [pad_front_eq]; simp [paddedInput]
  · refine ⟨_, hstack, by simp, ?_⟩
    intro i hi
    simp only [List.length_map, List.length_range] at hi
    have hget : ((List.range (lfr_count features.length lfr_n)).map
        (fun i => stackedWindow lfr_m lfr_n (paddedInput lfr_m features) i)).getD i []
          = stackedWindow lfr_m lfr_n (paddedInput lfr_m features) i := by
      rw [List.getD_eq_getElem _ _ (by simpa using hi)]
      simp
    rw [hget]
    exact ⟨rfl, stackedWindow_length lfr_m lfr_n mel_bins _ i hPlen hP⟩

/-- Witness for C11: 8 one-dimensional frames with lfr_m = 7 and lfr_n = 6; the second
window runs past the end and is filled with the last frame. -/
theorem c11_stacked_window_contents_witness :
    (∃ stacked, lfr_stack 7 6 ([[1], [2], [3], [4], [5], [6], [7], [8]] : List (List Nat))
        = some stacked ∧
      stacked.length = lfr_count 8 6 ∧
      ∀ i, i < stacked.length →
        stacked.getD i [] = stackedWindow 7 6
          (paddedInput 7 ([[1], [2], [3], [4], [5], [6], [7], [8]] : List (List Nat))) i ∧
        (stacked.getD i []).length = 7 * 1) ∧
    lfr_stack 7 6 ([[1], [2], [3], [4], [5], [6], [7], [8]] : List (List Nat))
      = some [[1, 1, 1, 1, 2, 3, 4], [4, 5, 6, 7, 8, 8, 8]] :=
  ⟨(c11_stacked_window_contents 7 6 1
      ([[1], [2], [3], [4], [5], [6], [7], [8]] : List (List Nat))
      (by decide) (by decide) (by decide)).2, by decide⟩

/-! ## Theorems: the pending-refine queue -/

theorem toSizeT_of_int_range (x : Int) (h0 : 0 ≤ x) (h1 : x < 2 ^ 31) :
    toSizeT x = x.toNat := by
  unfold toSizeT
  rw [Int.emod_eq_of_lt h0 (by omega)]

theorem RefineQueue.fetchLoop_spec (chunk_size : Int) (l : List Str) :
    ∀ (cur_size : Int) (result : Str),
      ∃ k, k ≤ l.length ∧
        (RefineQueue.fetchLoop chunk_size l cur_size result).1
          = result ++ (l.take k).flatten ∧
        (RefineQueue.fetchLoop chunk_size l cur_size result).2.q = l.drop k ∧
        ((1 ≤ k ∧ toSizeT chunk_size ≤ (result ++ (l.take k).flatten).length ∧
            ∀ j, 1 ≤ j → j < k → (result ++ (l.take j).flatten).length < toSizeT chunk_size) ∨
          (k = l.length ∧
            ∀ j, 1 ≤ j → j ≤ k → (result ++ (l.take j).flatten).length < toSizeT chunk_size)) := by
  induction l with
  | nil =>
    intro cur_size result
    refine ⟨0, by simp, by simp [RefineQueue.fetchLoop], by simp [RefineQueue.fetchLoop], ?_⟩
    right
    exact ⟨rfl, fun j h1 h2 => by omega⟩
  | cons front rest ih =>
    intro cur_size result
    unfold RefineQueue.fetchLoop
    by_cases hstop : (result ++ front).length ≥ toSizeT chunk_size
    · rw [if_pos hstop]
      refine ⟨1, by simp, by simp, by simp, ?_⟩
      left
      refine ⟨le_refl _, by simpa using hstop, fun j h1 h2 => by omega⟩
    · rw [if_neg hstop]
      obtain ⟨k, hk, h1, h2, h3⟩ := ih (cur_size - front.length) (result ++ front)
      refine ⟨k + 1, by simp [hk], by simp [h1], by simp [h2], ?_⟩
      have hstep : ∀ j, (result ++ ((front :: rest).take (j + 1)).flatten)
          = (result ++ front) ++ (rest.take j).flatten := by
        intro j; simp
      rcases h3 with ⟨a1, a2, a3⟩ | ⟨b1, b2⟩
      · left
        refine ⟨by omega, by rw [hstep]; exact a2, ?_⟩
        intro j hj1 hj2
        obtain ⟨j2, rfl⟩ : ∃ j2, j = j2 + 1 := ⟨j - 1, by omega⟩
        rw [hstep]
        by_cases hz : j2 = 0
        · subst hz
          simp only [List.take_zero, List.flatten_nil, List.append_nil]
          omega
        · exact a3 j2 (by omega) (by omega)
      · right
        refine ⟨by simp [b1], ?_⟩
        intro j hj1 hj2
        obtain ⟨j2, rfl⟩ : ∃ j2, j = j2 + 1 := ⟨j - 1, by omega⟩
        rw [hstep]
        by_cases hz : j2 = 0
        · subst hz
          simp only [List.take_zero, List.flatten_nil, List.append_nil]
          omega
        · exact b2 j2 (by omega) (by omega)

/-- C12: for a pending-refine queue and a chunk size 0 < chunk_size (an `int`),
`fetch(chunk_size)` returns the concatenation, in arrival order, of the shortest prefix
of the queue whose total length is at least chunk_size, or of the whole queue when its
total length is below chunk_size, and leaves the remaining fragments queued in order.
After pushing "ab", "cde", "f", `fetch(4)` returns "abcde" and leaves ["f"]. -/
theorem c12_fetch_shortest_front_part (Q : RefineQueue) (chunk_size : Int)
    (hpos : 0 < chunk_size) (hint : chunk_size < 2 ^ 31) :
    (∃ k, k ≤ Q.q.length ∧
      (Q.fetch chunk_size).1 = (Q.q.take k).flatten ∧
      (Q.fetch chunk_size).2.q = Q.q.drop k ∧
      ((chunk_size ≤ (((Q.q.take k).flatten).length : Int) ∧
          ∀ j, j < k → (((Q.q.take j).flatten).length : Int) < chunk_size) ∨
        (k = Q.q.length ∧ ((Q.q.flatten).length : Int) < chunk_size))) ∧
    ((((({ q := [], cur_size := 0 } : RefineQueue).push [97, 98]).push
        [99, 100, 101]).push [102]).fetch 4).1 = [97, 98, 99, 100, 101] ∧
    ((((({ q := [], cur_size := 0 } : RefineQueue).push [97, 98]).push
        [99, 100, 101]).push [102]).fetch 4).2.q = [[102]] := by
  refine ⟨?_, by decide, by decide⟩
  have hN := toSizeT_of_int_range chunk_size (by omega) hint
  obtain ⟨k, hk, h1, h2, h3⟩ := RefineQueue.fetchLoop_spec chunk_size Q.q Q.cur_size []
  rw [hN] at h3
  simp only [List.nil_append] at h1 h3
  refine ⟨k, hk, h1, h2, ?_⟩
  rcases h3 with ⟨a1, a2, a3⟩ | ⟨b1, b2⟩
  · left
    refine ⟨by omega, ?_⟩
    intro j hj
    by_cases hz : j = 0
    · subst hz; simp; omega
    · have := a3 j (by omega) hj
      omega
  · right
    refine ⟨b1, ?_⟩
    by_cases hz : k = 0
    · have hq : Q.q = [] := by
        apply List.eq_nil_of_length_eq_zero; omega
      rw [hq]; simp; omega
    · have := b2 k (by omega) (le_refl _)
      rw [b1, List.take_length] at this
      omega

/-- Witness for C12: the fragments "ab", "cde", "f" and the chunk size 4. -/
theorem c12_fetch_shortest_front_part_witness :
    ∃ k, k ≤ ([[97, 98], [99, 100, 101], [102]] : List Str).length ∧
      (({ q := [[97, 98], [99, 100, 101], [102]], cur_size := 6 } : RefineQueue).fetch 4).1
        = (([[97, 98], [99, 100, 101], [102]] : List Str).take k).flatten ∧
      (({ q := [[97, 98], [99, 100, 101], [102]], cur_size := 6 } : RefineQueue).fetch 4).2.q
        = ([[97, 98], [99, 100, 101], [102]] : List Str).drop k ∧
      (((4 : Int) ≤ (((([[97, 98], [99, 100, 101], [102]] : List Str).take k).flatten).length
            : Int) ∧
          ∀ j, j < k →
            (((([[97, 98], [99, 100, 101], [102]] : List Str).take j).flatten).length : Int)
              < 4) ∨
        (k = ([[97, 98], [99, 100, 101], [102]] : List Str).length ∧
          (((([[97, 98], [99, 100, 101], [102]] : List Str)).flatten).length : Int) < 4)) :=
  (c12_fetch_shortest_front_part
    ({ q := [[97, 98], [99, 100, 101], [102]], cur_size := 6 } : RefineQueue) 4
    (by decide) (by decide)).1

/-! ## Theorems: the refine and summarize scheduler -/

theorem RefineQueue.fetch_nil (cur_size chunk_size : Int) :
    (({ q := [], cur_size := cur_size } : RefineQueue).fetch chunk_size).1 = [] := by
  simp [RefineQueue.fetch, RefineQueue.fetchLoop]

theorem RefineQueue.fetchLoop_ne_nil (chunk_size : Int) (l : List Str) :
    ∀ (cur_size : Int) (result : Str), result ≠ [] →
      (RefineQueue.fetchLoop chunk_size l cur_size result).1 ≠ [] := by
  induction l with
  | nil => intro cur_size result h; simpa [RefineQueue.fetchLoop] using h
  | cons front rest ih =>
    intro cur_size result h
    unfold RefineQueue.fetchLoop
    split
    · simp [h]
    · exact ih _ _ (by simp [h])

theorem RefineQueue.fetch_ne_nil (Q : RefineQueue) (chunk_size : Int) (hq : Q.q ≠ [])
    (hne : ∀ f ∈ Q.q, f ≠ []) : (Q.fetch chunk_size).1 ≠ [] := by
  unfold RefineQueue.fetch
  cases hl : Q.q with
  | nil => exact absurd hl hq
  | cons front rest =>
    have hf : front ≠ [] := hne front (by rw [hl]; exact List.mem_cons_self _ _)
    unfold RefineQueue.fetchLoop
    split
    · simpa using hf
    · exact RefineQueue.fetchLoop_ne_nil _ _ _ _ (by simpa using hf)

theorem force_refine_clear (s : LLMState) :
    (if s.force_refine = true then { s with force_refine := false } else s)
      = { s with force_refine := false } := by
  obtain ⟨rsp, rcs, rspan, ssp, fr, fs, Q, rt, st, status, start, file⟩ := s
  cases fr <;> rfl

/-- The summarize cycle: the flag is set and the refined transcript is not empty. -/
theorem llm_iteration_summarize (llm_predict : Str → Str → Str) (func : Bool) (now : Int)
    (s : LLMState) (hflag : s.force_summarize = true) (htext : s.refined_text ≠ []) :
    llm_iteration llm_predict func now s
      = if llm_predict s.refined_text s.summarize_system_prompt = [] then
          ({ s with status := LLMStatus.LLM_SUMMARIZE,
                    summarized_text := llm_predict s.refined_text s.summarize_system_prompt },
            { calls := [(s.refined_text, s.summarize_system_prompt)], shown := [],
              slept := false })
        else
          ({ s with status := LLMStatus.LLM_SUMMARIZE,
                    summarized_text := llm_predict s.refined_text s.summarize_system_prompt,
                    force_summarize := false },
            { calls := [(s.refined_text, s.summarize_system_prompt)],
              shown := if func then
                [("summarize", llm_predict s.refined_text s.summarize_system_prompt)] else [],
              slept := false }) := by
  have hlen : s.refined_text.length > 0 := List.length_pos.mpr htext
  unfold llm_iteration
  simp only [hflag, hlen, and_self, if_true]

/-- The throttled iteration: no summarize cycle is due and the refine cycle is not. -/
theorem llm_iteration_throttled (llm_predict : Str → Str → Str) (func : Bool) (now : Int)
    (s : LLMState) (hnosum : ¬ (s.force_summarize = true ∧ s.refined_text ≠ []))
    (hspan : elapsed_count s.start now < s.refine_span) (hforce : s.force_refine = false) :
    llm_iteration llm_predict func now s
      = ({ s with status := LLMStatus.LLM_IDLE },
          { calls := [], shown := [], slept := true }) := by
  have hcond : ¬ (s.force_summarize = true ∧ s.refined_text.length > 0) := by
    intro h; exact hnosum ⟨h.1, List.length_pos.mp h.2⟩
  unfold llm_iteration
  simp only [hcond, if_false, hspan, hforce, Bool.false_eq_true, not_false_eq_true, and_self,
    if_true]

/-- The refine cycle: no summarize cycle is due and the throttle is passed. -/
theorem llm_iteration_refine (llm_predict : Str → Str → Str) (func : Bool) (now : Int)
    (s : LLMState) (hnosum : ¬ (s.force_summarize = true ∧ s.refined_text ≠ []))
    (hpass : ¬ (elapsed_count s.start now < s.refine_span) ∨ s.force_refine = true) :
    llm_iteration llm_predict func now s
      = if (s.wait_refine_messages.fetch s.refine_chunk_size).1 = [] then
          ({ s with status := LLMStatus.LLM_IDLE, start := now,
                    wait_refine_messages :=
                      (s.wait_refine_messages.fetch s.refine_chunk_size).2,
                    force_refine := false },
            { calls := [], shown := [], slept := false })
        else if llm_predict (s.wait_refine_messages.fetch s.refine_chunk_size).1
            s.refine_system_prompt = [] then
          ({ s with status := LLMStatus.LLM_REFINE, start := now,
                    wait_refine_messages :=
                      (s.wait_refine_messages.fetch s.refine_chunk_size).2,
                    force_refine := false },
            { calls := [((s.wait_refine_messages.fetch s.refine_chunk_size).1,
                s.refine_system_prompt)], shown := [], slept := false })
        else
          ({ s with status := LLMStatus.LLM_REFINE, start := now,
                    wait_refine_messages :=
                      (s.wait_refine_messages.fetch s.refine_chunk_size).2,
                    force_refine := false,
                    refine_output_file := s.refine_output_file.map (fun file => file ++
                      llm_predict (s.wait_refine_messages.fetch s.refine_chunk_size).1
                        s.refine_system_prompt),
                    refined_text := s.refined_text ++
                      llm_predict (s.wait_refine_messages.fetch s.refine_chunk_size).1
                        s.refine_system_prompt },
            { calls := [((s.wait_refine_messages.fetch s.refine_chunk_size).1,
                s.refine_system_prompt)],
              shown := if func then
                [("refine", llm_predict (s.wait_refine_messages.fetch s.refine_chunk_size).1
                  s.refine_system_prompt)] else [],
              slept := false }) := by
  have hcond : ¬ (s.force_summarize = true ∧ s.refined_text.length > 0) := by
    intro h; exact hnosum ⟨h.1, List.length_pos.mp h.2⟩
  have hthr : ¬ (elapsed_count s.start now < s.refine_span ∧ ¬ (s.force_refine = true)) := by
    intro h
    rcases hpass with h1 | h2
    · exact h1 h.1
    · exact h.2 h2
  obtain ⟨rsp, rcs, rspan, ssp, fr, fs, Q, rt, st, status, start, file⟩ := s
  simp only at hcond hthr
  unfold llm_iteration
  simp only [hcond, hthr, if_false]
  cases fr <;> simp only [Bool.false_eq_true, if_false, if_true]

/-! ### Claims C13 to C18 -/

/-- C13 as stated fails: with the forced-summarize flag set, an empty refined transcript,
the forced-refine flag set and the fragment "x" queued, one iteration issues a
language-model call (the refine call on "x") and ends with status `LLM_REFINE`. -/
theorem c13_forced_summarize_empty_counterexample :
    (llm_iteration (fun _ _ => [121]) true 0
      { refine_system_prompt := [82], refine_chunk_size := 1024, refine_span := 120,
        summarize_system_prompt := [83], force_refine := true, force_summarize := true,
        wait_refine_messages := { q := [[120]], cur_size := 1 }, refined_text := [],
        summarized_text := [], status := LLMStatus.LLM_IDLE, start := 0,
        refine_output_file := none }).2.calls = [([120], [82])] ∧
    (llm_iteration (fun _ _ => [121]) true 0
      { refine_system_prompt := [82], refine_chunk_size := 1024, refine_span := 120,
        summarize_system_prompt := [83], force_refine := true, force_summarize := true,
        wait_refine_messages := { q := [[120]], cur_size := 1 }, refined_text := [],
        summarized_text := [], status := LLMStatus.LLM_IDLE, start := 0,
        refine_output_file := none }).1.status = LLMStatus.LLM_REFINE := by
  decide

/-- C13, amended: when the forced-summarize flag is set and the refined transcript is
empty, one iteration of the scheduler loop runs no summarize cycle: the flag stays set,
the stored summary is unchanged, nothing is reported under "summarize", and the only
language-model call it can make is the refine call on the fetched text. It performs no
language-model call at all and ends with status Idle when the refine throttle holds
(elapsed below refine_span and forced-refine not set) or the pending-refine queue is
empty. -/
theorem c13_forced_summarize_empty_no_summary (llm_predict : Str → Str → Str) (func : Bool)
    (now : Int) (s : LLMState) (hflag : s.force_summarize = true)
    (hempty : s.refined_text = []) :
    (llm_iteration llm_predict func now s).1.force_summarize = true ∧
    (llm_iteration llm_predict func now s).1.summarized_text = s.summarized_text ∧
    (∀ e ∈ (llm_iteration llm_predict func now s).2.shown, e.1 ≠ "summarize") ∧
    ((llm_iteration llm_predict func now s).2.calls = [] ∨
      (llm_iteration llm_predict func now s).2.calls
        = [((s.wait_refine_messages.fetch s.refine_chunk_size).1, s.refine_system_prompt)]) ∧
    (((elapsed_count s.start now < s.refine_span ∧ s.force_refine = false) ∨
        s.wait_refine_messages.q = []) →
      (llm_iteration llm_predict func now s).2.calls = [] ∧
      (llm_iteration llm_predict func now s).1.status = LLMStatus.LLM_IDLE) := by
  have hnosum : ¬ (s.force_summarize = true ∧ s.refined_text ≠ []) := fun h => h.2 hempty
  by_cases hthr : elapsed_count s.start now < s.refine_span ∧ s.force_refine = false
  · rw [llm_iteration_throttled llm_predict func now s hnosum hthr.1 hthr.2]
    exact ⟨hflag, rfl, by simp, Or.inl rfl, fun _ => ⟨rfl, rfl⟩⟩
  · have hpass : ¬ (elapsed_count s.start now < s.refine_span) ∨ s.force_refine = true := by
      by_cases h1 : elapsed_count s.start now < s.refine_span
      · right
        cases hf : s.force_refine with
        | true => rfl
        | false => exact absurd ⟨h1, hf⟩ hthr
      · left; exact h1
    rw [llm_iteration_refine llm_predict func now s hnosum hpass]
    by_cases htext : (s.wait_refine_messages.fetch s.refine_chunk_size).1 = []
    · rw [if_pos htext]
      exact ⟨hflag, rfl, by simp, Or.inl rfl, fun _ => ⟨rfl, rfl⟩⟩
    · rw [if_neg htext]
      have hq : ¬ (s.wait_refine_messages.q = []) := by
        intro hq
        apply htext
        obtain ⟨rsp, rcs, rspan, ssp, fr, fs, Q, rt, st, status, start, file⟩ := s
        obtain ⟨q, cur⟩ := Q
        simp only at hq
        subst hq
        exact RefineQueue.fetch_nil _ _
      have himp : ((elapsed_count s.start now < s.refine_span ∧ s.force_refine = false) ∨
          s.wait_refine_messages.q = []) → False := by
        intro h
        rcases h with h1 | h2
        · exact hthr h1
        · exact hq h2
      split
      · exact ⟨hflag, rfl, by simp, Or.inr rfl, fun h => absurd h himp⟩
      · refine ⟨hflag, rfl, ?_, Or.inr rfl, fun h => absurd h himp⟩
        intro e he
        cases func
        · simp at he
        · simp only [if_true, List.mem_singleton] at he
          rw [he]
          show "refine" ≠ "summarize"
          decide

/-- Witness for C13 (amended): the flag set, an empty refined transcript, 5 seconds
elapsed of a span of 120 and no forced refine: no call, status Idle. -/
theorem c13_forced_summarize_empty_no_summary_witness :
    (llm_iteration (fun _ _ => [121]) true 5000000000
      { refine_system_prompt := [82], refine_chunk_size := 1024, refine_span := 120,
        summarize_system_prompt := [83], force_refine := false, force_summarize := true,
        wait_refine_messages := { q := [[120]], cur_size := 1 }, refined_text := [],
        summarized_text := [], status := LLMStatus.LLM_REFINE, start := 0,
        refine_output_file := none }).2.calls = [] ∧
    (llm_iteration (fun _ _ => [121]) true 5000000000
      { refine_system_prompt := [82], refine_chunk_size := 1024, refine_span := 120,
        summarize_system_prompt := [83], force_refine := false, force_summarize := true,
        wait_refine_messages := { q := [[120]], cur_size := 1 }, refined_text := [],
        summarized_text := [], status := LLMStatus.LLM_REFINE, start := 0,
        refine_output_file := none }).1.status = LLMStatus.LLM_IDLE :=
  (c13_forced_summarize_empty_no_summary (fun _ _ => [121]) true 5000000000
    { refine_system_prompt := [82], refine_chunk_size := 1024, refine_span := 120,
      summarize_system_prompt := [83], force_refine := false, force_summarize := true,
      wait_refine_messages := { q := [[120]], cur_size := 1 }, refined_text := [],
      summarized_text := [], status := LLMStatus.LLM_REFINE, start := 0,
      refine_output_file := none } rfl rfl).2.2.2.2 (Or.inl ⟨by decide, rfl⟩)

/-- C14: when the forced-summarize flag is set and the refined transcript is not empty,
one iteration issues exactly one language-model call, on the whole refined transcript
with the summarization prompt, and does no refinement work: the pending-refine queue,
the forced-refine flag, the refined transcript and the refine clock are unchanged,
whatever the clock reading and the forced-refine flag are. -/
theorem c14_summarize_cycle_one_call (llm_predict : Str → Str → Str) (func : Bool)
    (now : Int) (s : LLMState) (hflag : s.force_summarize = true)
    (htext : s.refined_text ≠ []) :
    (llm_iteration llm_predict func now s).2.calls
      = [(s.refined_text, s.summarize_system_prompt)] ∧
    (llm_iteration llm_predict func now s).1.wait_refine_messages = s.wait_refine_messages ∧
    (llm_iteration llm_predict func now s).1.force_refine = s.force_refine ∧
    (llm_iteration llm_predict func now s).1.refined_text = s.refined_text ∧
    (llm_iteration llm_predict func now s).1.start = s.start ∧
    (llm_iteration llm_predict func now s).1.refine_output_file = s.refine_output_file ∧
    (llm_iteration llm_predict func now s).1.status = LLMStatus.LLM_SUMMARIZE := by
  rw [llm_iteration_summarize llm_predict func now s hflag htext]
  split <;> exact ⟨rfl, rfl, rfl, rfl, rfl, rfl, rfl⟩

/-- Witness for C14: the flag set, the refined transcript "ab", the forced-refine flag
set as well and a fragment queued. -/
theorem c14_summarize_cycle_one_call_witness :
    (llm_iteration (fun _ _ => [121]) true 500000000000
      { refine_system_prompt := [82], refine_chunk_size := 1024, refine_span := 120,
        summarize_system_prompt := [83], force_refine := true, force_summarize := true,
        wait_refine_messages := { q := [[120]], cur_size := 1 }, refined_text := [97, 98],
        summarized_text := [], status := LLMStatus.LLM_IDLE, start := 0,
        refine_output_file := none }).2.calls = [([97, 98], [83])] :=
  (c14_summarize_cycle_one_call (fun _ _ => [121]) true 500000000000
    { refine_system_prompt := [82], refine_chunk_size := 1024, refine_span := 120,
      summarize_system_prompt := [83], force_refine := true, force_summarize := true,
      wait_refine_messages := { q := [[120]], cur_size := 1 }, refined_text := [97, 98],
      summarized_text := [], status := LLMStatus.LLM_IDLE, start := 0,
      refine_output_file := none } rfl (by decide)).1

/-- C15 at its failing input: in a summarize cycle (flag set, refined transcript "ab")
whose language-model call returns the empty string, the forced-summarize flag is still
set when the iteration ends, so the next iteration issues the same call again. In general
the flag is cleared exactly when the response is not empty. -/
theorem c15_summarize_flag_kept_on_empty_response :
    (llm_iteration (fun _ _ => []) true 0
      { refine_system_prompt := [82], refine_chunk_size := 1024, refine_span := 120,
        summarize_system_prompt := [83], force_refine := false, force_summarize := true,
        wait_refine_messages := { q := [], cur_size := 0 }, refined_text := [97, 98],
        summarized_text := [], status := LLMStatus.LLM_IDLE, start := 0,
        refine_output_file := none }).1.force_summarize = true ∧
    (llm_iteration (fun _ _ => []) true 0
        (llm_iteration (fun _ _ => []) true 0
          { refine_system_prompt := [82], refine_chunk_size := 1024, refine_span := 120,
            summarize_system_prompt := [83], force_refine := false, force_summarize := true,
            wait_refine_messages := { q := [], cur_size := 0 }, refined_text := [97, 98],
            summarized_text := [], status := LLMStatus.LLM_IDLE, start := 0,
            refine_output_file := none }).1).2.calls = [([97, 98], [83])] ∧
    (∀ (llm_predict : Str → Str → Str) (func : Bool) (now : Int) (s : LLMState),
      s.force_summarize = true → s.refined_text ≠ [] →
      ((llm_iteration llm_predict func now s).1.force_summarize = false
        ↔ llm_predict s.refined_text s.summarize_system_prompt ≠ [])) := by
  refine ⟨by decide, by decide, ?_⟩
  intro llm_predict func now s hflag htext
  rw [llm_iteration_summarize llm_predict func now s hflag htext]
  by_cases hr : llm_predict s.refined_text s.summarize_system_prompt = []
  · rw [if_pos hr]
    simp [hflag, hr]
  · rw [if_neg hr]
    simp [hr]

/-- C16: when no summarize cycle is due, the elapsed time is below refine_span seconds
and the forced-refine flag is not set, one iteration issues no language-model call,
reports nothing, and changes nothing but the status, which is Idle: the pending-refine
queue, the refined transcript, the stored summary, both force flags and the refine
clock are unchanged. -/
theorem c16_throttled_iteration_idle (llm_predict : Str → Str → Str) (func : Bool)
    (now : Int) (s : LLMState)
    (hnosum : ¬ (s.force_summarize = true ∧ s.refined_text ≠ []))
    (hspan : elapsed_count s.start now < s.refine_span) (hforce : s.force_refine = false) :
    (llm_iteration llm_predict func now s).2.calls = [] ∧
    (llm_iteration llm_predict func now s).2.shown = [] ∧
    (llm_iteration llm_predict func now s).1 = { s with status := LLMStatus.LLM_IDLE } ∧
    (llm_iteration llm_predict func now s).1.wait_refine_messages = s.wait_refine_messages ∧
    (llm_iteration llm_predict func now s).1.refined_text = s.refined_text ∧
    (llm_iteration llm_predict func now s).1.summarized_text = s.summarized_text ∧
    (llm_iteration llm_predict func now s).1.force_refine = s.force_refine ∧
    (llm_iteration llm_predict func now s).1.force_summarize = s.force_summarize ∧
    (llm_iteration llm_predict func now s).1.start = s.start ∧
    (llm_iteration llm_predict func now s).1.status = LLMStatus.LLM_IDLE := by
  rw [llm_iteration_throttled llm_predict func now s hnosum hspan hforce]
  exact ⟨rfl, rfl, rfl, rfl, rfl, rfl, rfl, rfl, rfl, rfl⟩

/-- Witness for C16: no flag set, 5 seconds elapsed of a span of 120, a fragment queued. -/
theorem c16_throttled_iteration_idle_witness :
    (llm_iteration (fun _ _ => [121]) true 5000000000
      { refine_system_prompt := [82], refine_chunk_size := 1024, refine_span := 120,
        summarize_system_prompt := [83], force_refine := false, force_summarize := false,
        wait_refine_messages := { q := [[120]], cur_size := 1 }, refined_text := [97],
        summarized_text := [], status := LLMStatus.LLM_REFINE, start := 0,
        refine_output_file := none }).2.calls = [] :=
  (c16_throttled_iteration_idle (fun _ _ => [121]) true 5000000000
    { refine_system_prompt := [82], refine_chunk_size := 1024, refine_span := 120,
      summarize_system_prompt := [83], force_refine := false, force_summarize := false,
      wait_refine_messages := { q := [[120]], cur_size := 1 }, refined_text := [97],
      summarized_text := [], status := LLMStatus.LLM_REFINE, start := 0,
      refine_output_file := none } (by decide) (by decide) rfl).1

/-- C17: in an iteration that passes the throttle (no summarize cycle due, and elapsed at
least refine_span or forced-refine set) with a non-empty pending-refine queue (whose
fragments are non-empty, as `LLM::refine` only queues non-empty text), exactly one
language-model call is issued, on `fetch(refine_chunk_size)` with the refinement prompt;
when its response r is not empty, the refined transcript becomes the old one followed by
r and r is reported once under "refine" (to a non-null callback). -/
theorem c17_refine_cycle_call_and_append (llm_predict : Str → Str → Str) (func : Bool)
    (now : Int) (s : LLMState)
    (hnosum : ¬ (s.force_summarize = true ∧ s.refined_text ≠ []))
    (hpass : ¬ (elapsed_count s.start now < s.refine_span) ∨ s.force_refine = true)
    (hqueue : s.wait_refine_messages.q ≠ [])
    (hfrag : ∀ f ∈ s.wait_refine_messages.q, f ≠ []) :
    (llm_iteration llm_predict func now s).2.calls
      = [((s.wait_refine_messages.fetch s.refine_chunk_size).1, s.refine_system_prompt)] ∧
    (llm_predict (s.wait_refine_messages.fetch s.refine_chunk_size).1 s.refine_system_prompt
        ≠ [] →
      (llm_iteration llm_predict func now s).1.refined_text
        = s.refined_text ++
            llm_predict (s.wait_refine_messages.fetch s.refine_chunk_size).1
              s.refine_system_prompt ∧
      (func = true → (llm_iteration llm_predict func now s).2.shown
        = [("refine", llm_predict (s.wait_refine_messages.fetch s.refine_chunk_size).1
              s.refine_system_prompt)])) := by
  have htext := RefineQueue.fetch_ne_nil s.wait_refine_messages s.refine_chunk_size
    hqueue hfrag
  rw [llm_iteration_refine llm_predict func now s hnosum hpass, if_neg htext]
  by_cases hr : llm_predict (s.wait_refine_messages.fetch s.refine_chunk_size).1
      s.refine_system_prompt = []
  · rw [if_pos hr]
    exact ⟨rfl, fun h => absurd hr h⟩
  · rw [if_neg hr]
    refine ⟨rfl, fun _ => ⟨rfl, ?_⟩⟩
    intro hf
    simp [hf]

/-- Witness for C17: 200 seconds elapsed of a span of 120, the fragments "ab" and "c"
queued, the refined transcript "x" and the response "y". -/
theorem c17_refine_cycle_call_and_append_witness :
    (llm_iteration (fun _ _ => [121]) true 200000000000
      { refine_system_prompt := [82], refine_chunk_size := 1024, refine_span := 120,
        summarize_system_prompt := [83], force_refine := false, force_summarize := false,
        wait_refine_messages := { q := [[97, 98], [99]], cur_size := 3 },
        refined_text := [120], summarized_text := [], status := LLMStatus.LLM_IDLE,
        start := 0, refine_output_file := none }).2.calls
      = [((({ q := [[97, 98], [99]], cur_size := 3 } : RefineQueue).fetch 1024).1, [82])] :=
  (c17_refine_cycle_call_and_append (fun _ _ => [121]) true 200000000000
    { refine_system_prompt := [82], refine_chunk_size := 1024, refine_span := 120,
      summarize_system_prompt := [83], force_refine := false, force_summarize := false,
      wait_refine_messages := { q := [[97, 98], [99]], cur_size := 3 },
      refined_text := [120], summarized_text := [], status := LLMStatus.LLM_IDLE,
      start := 0, refine_output_file := none }
    (by decide) (Or.inl (by decide)) (by decide) (by decide)).1

/-- C18: `LLM::refine(text)` with non-empty text appends text at the back of the
pending-refine queue and leaves the forced-refine flag unchanged; `LLM::refine("")` sets
the flag and leaves the queue unchanged. With the flag set and no summarize cycle due,
the next iteration runs a refine cycle whatever the elapsed time is: it resets the clock,
fetches from the queue, clears the flag and calls the language model on the fetched text
when that is not empty. -/
theorem c18_refine_push_or_force (s : LLMState) :
    (∀ text : Str, text ≠ [] →
      (LLM_refine s text).wait_refine_messages.q = s.wait_refine_messages.q ++ [text] ∧
      (LLM_refine s text).force_refine = s.force_refine ∧
      LLM_refine s text
        = { s with wait_refine_messages := s.wait_refine_messages.push text }) ∧
    ((LLM_refine s []).force_refine = true ∧
      (LLM_refine s []).wait_refine_messages = s.wait_refine_messages ∧
      LLM_refine s [] = { s with force_refine := true }) ∧
    (∀ (llm_predict : Str → Str → Str) (func : Bool) (now : Int),
      s.force_refine = true → ¬ (s.force_summarize = true ∧ s.refined_text ≠ []) →
      (llm_iteration llm_predict func now s).1.start = now ∧
      (llm_iteration llm_predict func now s).1.force_refine = false ∧
      (llm_iteration llm_predict func now s).1.wait_refine_messages
        = (s.wait_refine_messages.fetch s.refine_chunk_size).2 ∧
      (llm_iteration llm_predict func now s).2.slept = false ∧
      (llm_iteration llm_predict func now s).2.calls
        = if (s.wait_refine_messages.fetch s.refine_chunk_size).1 = [] then []
          else [((s.wait_refine_messages.fetch s.refine_chunk_size).1,
                  s.refine_system_prompt)]) := by
  refine ⟨?_, ?_, ?_⟩
  · intro text htext
    have hlen : text.length > 0 := List.length_pos.mpr htext
    unfold LLM_refine
    rw [if_pos hlen]
    exact ⟨rfl, rfl, rfl⟩
  · unfold LLM_refine
    simp
  · intro llm_predict func now hforce hnosum
    rw [llm_iteration_refine llm_predict func now s hnosum (Or.inr hforce)]
    by_cases htext : (s.wait_refine_messages.fetch s.refine_chunk_size).1 = []
    · rw [if_pos htext, if_pos htext]
      exact ⟨rfl, rfl, rfl, rfl, rfl⟩
    · rw [if_neg htext, if_neg htext]
      split <;> exact ⟨rfl, rfl, rfl, rfl, rfl⟩

/-- Witness for C18: `refine("")` on a state with one queued fragment, then an iteration
after 1 second of a span of 120: the refine cycle runs on the fragment. -/
theorem c18_refine_push_or_force_witness :
    (llm_iteration (fun _ _ => [121]) true 1000000000
      (LLM_refine
        { refine_system_prompt := [82], refine_chunk_size := 1024, refine_span := 120,
          summarize_system_prompt := [83], force_refine := false, force_summarize := false,
          wait_refine_messages := { q := [[97, 98]], cur_size := 2 },
          refined_text := [], summarized_text := [], status := LLMStatus.LLM_IDLE,
          start := 0, refine_output_file := none } [])).1.start = 1000000000 :=
  ((c18_refine_push_or_force
    (LLM_refine
      { refine_system_prompt := [82], refine_chunk_size := 1024, refine_span := 120,
        summarize_system_prompt := [83], force_refine := false, force_summarize := false,
        wait_refine_messages := { q := [[97, 98]], cur_size := 2 },
        refined_text := [], summarized_text := [], status := LLMStatus.LLM_IDLE,
        start := 0, refine_output_file := none } [])).2.2
    (fun _ _ => [121]) true 1000000000 (by decide) (by decide)).1

/-! ## Theorems: `llm_predict` and the frame queue -/

theorem str_find_least (pat : Str) (word : Str) :
    ∀ p, str_find word pat = some p →
      pat <+: word.drop p ∧ p ≤ word.length ∧ ∀ j, j < p → ¬ (pat <+: word.drop j) := by
  induction word with
  | nil =>
    intro p h
    unfold str_find at h
    by_cases hp : pat = []
    · rw [if_pos hp] at h
      simp only [Option.some.injEq] at h
      subst h
      subst hp
      exact ⟨by simp, by simp, fun j hj => by omega⟩
    · rw [if_neg hp] at h; exact absurd h (by simp)
  | cons c cs ih =>
    intro p h
    unfold str_find at h
    by_cases hp : pat.isPrefixOf (c :: cs) = true
    · rw [if_pos hp] at h
      simp only [Option.some.injEq] at h
      subst h
      exact ⟨by simpa using List.isPrefixOf_iff_prefix.mp hp, by simp,
        fun j hj => by omega⟩
    · rw [if_neg hp] at h
      cases hq : str_find cs pat with
      | none => rw [hq] at h; exact absurd h (by simp)
      | some q =>
        rw [hq] at h
        simp only [Option.map_some', Option.some.injEq] at h
        subst h
        obtain ⟨i1, i2, i3⟩ := ih q hq
        refine ⟨by simpa using i1, by simp [i2], ?_⟩
        intro j hj
        cases j with
        | zero =>
          intro hpre
          exact hp (List.isPrefixOf_iff_prefix.mpr (by simpa using hpre))
        | succ j2 =>
          simpa using i3 j2 (by omega)

theorem drop_of_decomposition (c pre pat post : Str) (h : c = pre ++ pat ++ post) :
    c.drop pre.length = pat ++ post ∧ c.drop (pre.length + pat.length) = post := by
  subst h
  constructor
  · rw [List.append_assoc, List.drop_left]
  · rw [← List.length_append, List.drop_left]

/-- C19: for the content string c of the first choice of a well-formed response,
`llm_predict` returns the part of c after the first occurrence of "</think>\n\n" when c
contains it, and c unchanged when c does not contain it. The first occurrence is given
as a decomposition c = pre ++ delimiter ++ post with the shortest possible pre. -/
theorem c19_llm_predict_strips_think (c : Str) :
    (∀ pre post : Str, c = pre ++ postfix_think ++ post →
      (∀ pre2 post2 : Str, c = pre2 ++ postfix_think ++ post2 → pre.length ≤ pre2.length) →
      llm_predict_result (ChatResponse.content c) = post) ∧
    (¬ (postfix_think <:+: c) → llm_predict_result (ChatResponse.content c) = c) := by
  constructor
  · intro pre post hc hfirst
    have hin : postfix_think <:+: c := ⟨pre, post, hc.symm⟩
    obtain ⟨p, hp⟩ := str_find_some_of_infix postfix_think c hin
    obtain ⟨h1, h2, h3⟩ := str_find_least postfix_think c p hp
    obtain ⟨d1, d2⟩ := drop_of_decomposition c pre postfix_think post hc
    have hle : p ≤ pre.length := by
      by_contra hgt
      exact h3 pre.length (by omega) (by rw [d1]; exact List.prefix_append _ _)
    have hge : pre.length ≤ p := by
      obtain ⟨t, ht⟩ := h1
      have hdec : c = c.take p ++ postfix_think ++ t := by
        rw [List.append_assoc, ht, List.take_append_drop]
      have := hfirst (c.take p) t hdec
      rw [List.length_take, Nat.min_eq_left h2] at this
      exact this
    have hpe : p = pre.length := by omega
    show strip_think c = post
    unfold strip_think
    rw [hp, hpe]
    exact d2
  · intro hno
    show strip_think c = c
    unfold strip_think
    rw [(str_find_none_iff postfix_think c).mpr hno]

/-- Witness for C19: the content "a</think>\n\nb" gives "b". -/
theorem c19_llm_predict_strips_think_witness :
    llm_predict_result
      (ChatResponse.content ([97] ++ postfix_think ++ [98])) = [98] :=
  (c19_llm_predict_strips_think ([97] ++ postfix_think ++ [98])).1 [97] [98] rfl
    (by
      intro pre2 post2 h
      cases pre2 with
      | nil => simp [postfix_think] at h
      | cons x xs => simp)

theorem AudioQueue.push_spec {α : Type} (Q : AudioQueue α) (data : List α)
    (hpos : 0 < Q.maxSize) (hint : Q.maxSize < 2 ^ 31)
    (hsize : (Q.q.length : Int) ≤ Q.maxSize) :
    ∃ Q2, Q.push data = some Q2 ∧ Q2.maxSize = Q.maxSize ∧
      (Q2.q.length : Int) ≤ Q.maxSize ∧
      Q2.q = (if (Q.q.length : Int) = Q.maxSize then Q.q.drop 1 else Q.q) ++ [data] := by
  have hN := toSizeT_of_int_range Q.maxSize (by omega) hint
  unfold AudioQueue.push
  rw [hN]
  by_cases hfull : Q.q.length ≥ Q.maxSize.toNat
  · rw [if_pos hfull]
    have heq : (Q.q.length : Int) = Q.maxSize := by omega
    cases hq : Q.q with
    | nil => rw [hq] at heq; simp at heq; omega
    | cons first rest =>
      rw [hq] at heq hsize
      refine ⟨_, rfl, rfl, ?_, ?_⟩
      · simp only [List.length_append, List.length_cons, List.length_nil] at hsize ⊢
        omega
      · have hr : (rest.length : Int) + 1 = Q.maxSize := by simpa using heq
        simp [hr]
  · rw [if_neg hfull]
    have hne : ¬ ((Q.q.length : Int) = Q.maxSize) := by omega
    refine ⟨_, rfl, rfl, ?_, ?_⟩
    · simp only [List.length_append, List.length_cons, List.length_nil]
      omega
    · simp [hne]

theorem AudioQueue.pop_spec {α : Type} (Q : AudioQueue α) :
    Q.pop = (Q.q.headD [], { Q with q := Q.q.drop 1 }) := by
  unfold AudioQueue.pop
  cases hq : Q.q with
  | nil =>
    simp only [List.headD_nil, List.drop_nil]
    rw [← hq]
  | cons first rest => simp

theorem runQueue_bounded {α : Type} (ops : List (QueueOp α)) :
    ∀ (Q : AudioQueue α) (out : List (List α)), 0 < Q.maxSize → Q.maxSize < 2 ^ 31 →
      (Q.q.length : Int) ≤ Q.maxSize →
      ∃ Q2 out2, runQueue Q out ops = some (Q2, out2) ∧ Q2.maxSize = Q.maxSize ∧
        (Q2.q.length : Int) ≤ Q.maxSize := by
  induction ops with
  | nil => intro Q out _ _ h; exact ⟨Q, out, rfl, rfl, h⟩
  | cons op ops ih =>
    intro Q out hpos hint hsize
    cases op with
    | push data =>
      obtain ⟨Q2, h1, h2, h3, _⟩ := AudioQueue.push_spec Q data hpos hint hsize
      obtain ⟨Q3, out3, k1, k2, k3⟩ := ih Q2 out (by rw [h2]; exact hpos)
        (by rw [h2]; exact hint) (by rw [h2]; exact h3)
      refine ⟨Q3, out3, ?_, by rw [k2, h2], by rw [← h2]; exact k3⟩
      simp only [runQueue, h1]
      exact k1
    | pop =>
      have hp := AudioQueue.pop_spec Q
      have hlen : ((Q.pop.2).q.length : Int) ≤ Q.maxSize := by
        rw [hp]
        simp only [List.length_drop]
        omega
      have hmax : (Q.pop.2).maxSize = Q.maxSize := by rw [hp]
      obtain ⟨Q3, out3, k1, k2, k3⟩ := ih Q.pop.2 (out ++ [Q.pop.1])
        (by rw [hmax]; exact hpos) (by rw [hmax]; exact hint) (by rw [hmax]; exact hlen)
      exact ⟨Q3, out3, k1, by rw [k2, hmax], by rw [← hmax]; exact k3⟩

theorem runQueue_pushes {α : Type} (frames : List (List α)) :
    ∀ (Q : AudioQueue α) (out : List (List α)) (ops : List (QueueOp α)),
      0 < Q.maxSize → Q.maxSize < 2 ^ 31 → (Q.q.length : Int) ≤ Q.maxSize →
      runQueue Q out (frames.map QueueOp.push ++ ops)
        = runQueue { Q with q := Q.retained frames } out ops := by
  induction frames with
  | nil =>
    intro Q out ops hpos hint hsize
    have hd : Q.q.length - Q.maxSize.toNat = 0 := by omega
    simp [AudioQueue.retained, hd]
  | cons f rest ih =>
    intro Q out ops hpos hint hsize
    obtain ⟨Q2, h1, h2, h3, h4⟩ := AudioQueue.push_spec Q f hpos hint hsize
    simp only [List.map_cons, List.cons_append, runQueue, h1]
    show runQueue Q2 out (List.map QueueOp.push rest ++ ops) = _
    rw [ih Q2 out ops (by rw [h2]; exact hpos) (by rw [h2]; exact hint)
      (by rw [h2]; exact h3), h2]
    congr 1
    obtain ⟨q, M⟩ := Q
    obtain ⟨q2, M2⟩ := Q2
    simp only [AudioQueue.retained] at h2 h4 hsize hpos h3 ⊢
    subst h2
    simp only [AudioQueue.mk.injEq, and_true]
    rw [h4]
    by_cases hfull : (q.length : Int) = M2
    · rw [if_pos hfull]
      have e1 : (q.drop 1 ++ [f]) ++ rest = (q ++ f :: rest).drop 1 := by
        cases q with
        | nil => simp at hfull; omega
        | cons a b => simp
      rw [e1, List.drop_drop]
      congr 1
      simp only [List.length_drop, List.length_append, List.length_cons]
      omega
    · rw [if_neg hfull]
      simp

theorem runQueue_pops {α : Type} (n : Nat) :
    ∀ (Q : AudioQueue α) (out : List (List α)),
      runQueue Q out (List.replicate n QueueOp.pop)
        = some ({ Q with q := Q.q.drop n },
            out ++ Q.q.take n ++ List.replicate (n - Q.q.length) []) := by
  induction n with
  | zero => intro Q out; simp [runQueue]
  | succ n ih =>
    intro Q out
    simp only [List.replicate_succ, runQueue]
    rw [ih, AudioQueue.pop_spec]
    cases hq : Q.q with
    | nil => simp [List.replicate_succ]
    | cons first rest => simp

/-- C20: for a frame queue with 0 < maxSize (an `int`) that holds at most maxSize frames,
every sequence of push and pop calls is defined and leaves at most maxSize frames queued;
a push onto maxSize frames discards exactly the oldest frame and appends the new one, a
push onto fewer frames only appends; pop returns the oldest frame and removes it, or the
empty frame when the queue is empty at the timeout; and after pushing the frames `fs`
into a queue, n pops return the retained frames (the last maxSize of them) in the order
they were pushed, followed by empty frames. -/
theorem c20_frame_queue_bounded_fifo {α : Type} (Q : AudioQueue α)
    (hpos : 0 < Q.maxSize) (hint : Q.maxSize < 2 ^ 31)
    (hsize : (Q.q.length : Int) ≤ Q.maxSize) :
    (∀ ops : List (QueueOp α), ∃ Q2 out, runQueue Q [] ops = some (Q2, out) ∧
      (Q2.q.length : Int) ≤ Q.maxSize) ∧
    (∀ data : List α, (Q.q.length : Int) = Q.maxSize →
      Q.push data = some { Q with q := Q.q.drop 1 ++ [data] }) ∧
    (∀ data : List α, (Q.q.length : Int) < Q.maxSize →
      Q.push data = some { Q with q := Q.q ++ [data] }) ∧
    Q.pop = (Q.q.headD [], { Q with q := Q.q.drop 1 }) ∧
    (Q.q = [] → Q.pop = ([], Q)) ∧
    (∀ (fs : List (List α)) (n : Nat),
      runQueue Q [] (fs.map QueueOp.push ++ List.replicate n QueueOp.pop)
        = some ({ Q with q := (Q.retained fs).drop n },
            (Q.retained fs).take n
              ++ List.replicate (n - (Q.retained fs).length) [])) := by
  refine ⟨?_, ?_, ?_, AudioQueue.pop_spec Q, ?_, ?_⟩
  · intro ops
    obtain ⟨Q2, out, h1, _, h3⟩ := runQueue_bounded ops Q [] hpos hint hsize
    exact ⟨Q2, out, h1, h3⟩
  · intro data hfull
    obtain ⟨Q2, h1, h2, _, h4⟩ := AudioQueue.push_spec Q data hpos hint hsize
    rw [h1]
    rw [if_pos hfull] at h4
    obtain ⟨q2, M2⟩ := Q2
    simp only at h2 h4
    rw [h2, h4]
  · intro data hlt
    obtain ⟨Q2, h1, h2, _, h4⟩ := AudioQueue.push_spec Q data hpos hint hsize
    rw [h1]
    rw [if_neg (by omega)] at h4
    obtain ⟨q2, M2⟩ := Q2
    simp only at h2 h4
    rw [h2, h4]
  · intro hq
    rw [AudioQueue.pop_spec, hq]
    simp only [List.headD_nil, List.drop_nil]
    rw [← hq]
  · intro fs n
    rw [runQueue_pushes fs Q [] _ hpos hint hsize, runQueue_pops]
    simp

/-- Witness for C20: a queue with maxSize 2, the frames [1], [2], [3] pushed and three
pops: the oldest frame is lost, the pops return [2], [3] and then the empty frame. -/
theorem c20_frame_queue_bounded_fifo_witness :
    runQueue ({ q := [], maxSize := 2 } : AudioQueue Nat) []
        ([[1], [2], [3]].map QueueOp.push ++ List.replicate 3 QueueOp.pop)
      = some ({ q := [], maxSize := 2 }, [[2], [3], []]) := by
  have h := (c20_frame_queue_bounded_fifo ({ q := [], maxSize := 2 } : AudioQueue Nat)
    (by decide) (by decide) (by decide)).2.2.2.2.2 [[1], [2], [3]] 3
  rw [h]
  decide

/-! ## Theorems: invariants of the ring buffer and of `fetch` -/

/-- C24: for a ring buffer of capacity C > 0 whose store has C cells and whose cursors
are in [0, C), every step of `write`, every `write` and every `read` keep both cursors in
[0, C), keep the store and the capacity, and keep the number of unread samples,
(writeIndex - readIndex) mod C, at most C (in fact below C); hence the cells at
`readIndex` and `writeIndex` exist before and after every such call. -/
theorem c24_ring_cursors_stay_in_range {α : Type} [Inhabited α] (b : AudioBuffer α)
    (hC : 0 < b.capacity) (hr : b.readIndex < b.capacity) (hw : b.writeIndex < b.capacity)
    (hlen : b.data.length = b.capacity) :
    (b.readIndex < b.data.length ∧ b.writeIndex < b.data.length ∧
      b.available ≤ b.capacity) ∧
    (∀ x : α, (b.writeOne x).readIndex < b.capacity ∧ (b.writeOne x).writeIndex < b.capacity ∧
      (b.writeOne x).capacity = b.capacity ∧ (b.writeOne x).data.length = b.capacity ∧
      (b.writeOne x).available ≤ b.capacity) ∧
    (∀ xs : List α, (b.write xs).readIndex < b.capacity ∧
      (b.write xs).writeIndex < b.capacity ∧
      (b.write xs).capacity = b.capacity ∧ (b.write xs).data.length = b.capacity ∧
      (b.write xs).available ≤ b.capacity ∧
      (b.write xs).readIndex < (b.write xs).data.length ∧
      (b.write xs).writeIndex < (b.write xs).data.length) ∧
    (∀ n : Nat, (b.read n).1.readIndex < b.capacity ∧ (b.read n).1.writeIndex < b.capacity ∧
      (b.read n).1.capacity = b.capacity ∧ (b.read n).1.data.length = b.capacity ∧
      (b.read n).1.available ≤ b.capacity ∧
      (b.read n).1.readIndex < (b.read n).1.data.length ∧
      (b.read n).1.writeIndex < (b.read n).1.data.length) := by
  have h : b.Wf := ⟨hC, hr, hw⟩
  refine ⟨⟨by omega, by omega, Nat.le_of_lt (AudioBuffer.available_lt b h)⟩, ?_, ?_, ?_⟩
  · intro x
    have hwf := AudioBuffer.writeOne_wf b x h
    obtain ⟨l1, c1⟩ := AudioBuffer.writeOne_data_length b x
    have hav := AudioBuffer.available_lt _ hwf
    have h1 := hwf.read_lt
    have h2 := hwf.write_lt
    rw [c1] at h1 h2 hav
    exact ⟨h1, h2, c1, by rw [l1, hlen], Nat.le_of_lt hav⟩
  · intro xs
    obtain ⟨i1, i2, i3, _⟩ := AudioBuffer.write_spec xs b h hlen
    have hav := AudioBuffer.available_lt _ i1
    have h1 := i1.read_lt
    have h2 := i1.write_lt
    rw [i3] at hav
    exact ⟨by omega, by omega, i3, by omega, Nat.le_of_lt hav, by omega, by omega⟩
  · intro n
    obtain ⟨j1, j2, j3, _, _, _⟩ := AudioBuffer.read_unread b n h
    have hav := AudioBuffer.available_lt _ j1
    have h1 := j1.read_lt
    have h2 := j1.write_lt
    rw [j3] at hav
    have hl : (b.read n).1.data.length = b.capacity := by rw [j2, hlen]
    exact ⟨by omega, by omega, j3, hl, Nat.le_of_lt hav, by omega, by omega⟩

/-- Witness for C24: a wrapped buffer of capacity 4, a write of five samples and a read. -/
theorem c24_ring_cursors_stay_in_range_witness :
    ((⟨[10, 11, 12, 13], 4, 3, 2⟩ : AudioBuffer Nat).write [1, 2, 3, 4, 5]).readIndex < 4 ∧
    ((⟨[10, 11, 12, 13], 4, 3, 2⟩ : AudioBuffer Nat).write [1, 2, 3, 4, 5]).writeIndex < 4 :=
  ⟨((c24_ring_cursors_stay_in_range (⟨[10, 11, 12, 13], 4, 3, 2⟩ : AudioBuffer Nat)
      (by decide) (by decide) (by decide) (by decide)).2.2.1 [1, 2, 3, 4, 5]).1,
    ((c24_ring_cursors_stay_in_range (⟨[10, 11, 12, 13], 4, 3, 2⟩ : AudioBuffer Nat)
      (by decide) (by decide) (by decide) (by decide)).2.2.1 [1, 2, 3, 4, 5]).2.1⟩

/-- C25: for every pending-refine queue and every chunk size, `fetch` loses and
duplicates nothing: the returned string followed by the concatenation of the fragments
left in the queue is the concatenation of the fragments queued before the call, and the
fragments left are the end of the original queue, in the same order. -/
theorem c25_fetch_loses_nothing (Q : RefineQueue) (chunk_size : Int) :
    (Q.fetch chunk_size).1 ++ (Q.fetch chunk_size).2.q.flatten = Q.q.flatten ∧
    (Q.fetch chunk_size).2.q <:+ Q.q ∧
    ∃ k, (Q.fetch chunk_size).1 = (Q.q.take k).flatten ∧
      (Q.fetch chunk_size).2.q = Q.q.drop k := by
  obtain ⟨k, _, h1, h2, _⟩ := RefineQueue.fetchLoop_spec chunk_size Q.q Q.cur_size []
  have e1 : (Q.fetch chunk_size).1 = (Q.q.take k).flatten := by
    simpa [RefineQueue.fetch] using h1
  have e2 : (Q.fetch chunk_size).2.q = Q.q.drop k := h2
  refine ⟨?_, ?_, k, e1, e2⟩
  · rw [e1, e2, ← List.flatten_append, List.take_append_drop]
  · rw [e2]
    exact List.drop_suffix k Q.q

/-! ## Theorems: further properties of the scheduler, the stacking and the decoding -/

/-- C26: in a refine cycle (throttle passed, no summarize cycle due, non-empty fetched
text) whose language-model call returns the empty string, the fragments drained from the
pending-refine queue are discarded: the queue keeps only the fragments behind them, the
refined transcript and the refine output file are unchanged, nothing is reported to the
callback, and the state after the iteration is the state before with the status, the
clock, the queue and the forced-refine flag replaced, so that it no longer holds the
drained text and no later cycle can send it again. -/
theorem c26_empty_refine_drops_fragments (llm_predict : Str → Str → Str) (func : Bool)
    (now : Int) (s : LLMState)
    (hnosum : ¬ (s.force_summarize = true ∧ s.refined_text ≠ []))
    (hpass : ¬ (elapsed_count s.start now < s.refine_span) ∨ s.force_refine = true)
    (htext : (s.wait_refine_messages.fetch s.refine_chunk_size).1 ≠ [])
    (hresp : llm_predict (s.wait_refine_messages.fetch s.refine_chunk_size).1
      s.refine_system_prompt = []) :
    (llm_iteration llm_predict func now s).1
      = { s with status := LLMStatus.LLM_REFINE, start := now,
                 wait_refine_messages := (s.wait_refine_messages.fetch s.refine_chunk_size).2,
                 force_refine := false } ∧
    (llm_iteration llm_predict func now s).2.calls
      = [((s.wait_refine_messages.fetch s.refine_chunk_size).1, s.refine_system_prompt)] ∧
    (llm_iteration llm_predict func now s).2.shown = [] ∧
    (llm_iteration llm_predict func now s).1.refined_text = s.refined_text ∧
    (llm_iteration llm_predict func now s).1.refine_output_file = s.refine_output_file ∧
    (∃ k, 1 ≤ k ∧
      (s.wait_refine_messages.fetch s.refine_chunk_size).1
        = (s.wait_refine_messages.q.take k).flatten ∧
      (llm_iteration llm_predict func now s).1.wait_refine_messages.q
        = s.wait_refine_messages.q.drop k) := by
  rw [llm_iteration_refine llm_predict func now s hnosum hpass, if_neg htext, if_pos hresp]
  refine ⟨rfl, rfl, rfl, rfl, rfl, ?_⟩
  obtain ⟨k, _, h1, h2, _⟩ := RefineQueue.fetchLoop_spec s.refine_chunk_size
    s.wait_refine_messages.q s.wait_refine_messages.cur_size []
  have e1 : (s.wait_refine_messages.fetch s.refine_chunk_size).1
      = (s.wait_refine_messages.q.take k).flatten := by
    simpa [RefineQueue.fetch] using h1
  refine ⟨k, ?_, e1, h2⟩
  by_contra hk
  have hk0 : k = 0 := by omega
  rw [hk0] at e1
  exact htext (by simpa using e1)

/-- Witness for C26: the fragments "ab" and "c" queued, chunk size 2, 200 seconds elapsed
of a span of 120, and a language model that returns the empty string. -/
theorem c26_empty_refine_drops_fragments_witness :
    (llm_iteration (fun _ _ => []) true 200000000000
      { refine_system_prompt := [82], refine_chunk_size := 2, refine_span := 120,
        summarize_system_prompt := [83], force_refine := false, force_summarize := false,
        wait_refine_messages := { q := [[97, 98], [99]], cur_size := 3 },
        refined_text := [120], summarized_text := [], status := LLMStatus.LLM_IDLE,
        start := 0, refine_output_file := none }).2.shown = [] :=
  (c26_empty_refine_drops_fragments (fun _ _ => []) true 200000000000
    { refine_system_prompt := [82], refine_chunk_size := 2, refine_span := 120,
      summarize_system_prompt := [83], force_refine := false, force_summarize := false,
      wait_refine_messages := { q := [[97, 98], [99]], cur_size := 3 },
      refined_text := [120], summarized_text := [], status := LLMStatus.LLM_IDLE,
      start := 0, refine_output_file := none }
    (by decide) (Or.inl (by decide)) (by decide) (by decide)).2.2.1

theorem llm_iteration_refine_fields (llm_predict : Str → Str → Str) (func : Bool)
    (now : Int) (s : LLMState)
    (hnosum : ¬ (s.force_summarize = true ∧ s.refined_text ≠ []))
    (hpass : ¬ (elapsed_count s.start now < s.refine_span) ∨ s.force_refine = true) :
    (llm_iteration llm_predict func now s).1.start = now ∧
    (llm_iteration llm_predict func now s).1.force_refine = false ∧
    (llm_iteration llm_predict func now s).1.refine_span = s.refine_span := by
  rw [llm_iteration_refine llm_predict func now s hnosum hpass]
  split
  · exact ⟨rfl, rfl, rfl⟩
  · split <;> exact ⟨rfl, rfl, rfl⟩

theorem llm_iteration_keeps_queue_when_throttled (llm_predict : Str → Str → Str)
    (func : Bool) (now : Int) (s : LLMState)
    (hspan : elapsed_count s.start now < s.refine_span) (hforce : s.force_refine = false) :
    (llm_iteration llm_predict func now s).1.wait_refine_messages = s.wait_refine_messages ∧
    ((llm_iteration llm_predict func now s).2.calls = [] ∨
      (llm_iteration llm_predict func now s).2.calls
        = [(s.refined_text, s.summarize_system_prompt)]) := by
  by_cases hsum : s.force_summarize = true ∧ s.refined_text ≠ []
  · rw [llm_iteration_summarize llm_predict func now s hsum.1 hsum.2]
    split <;> exact ⟨rfl, Or.inr rfl⟩
  · rw [llm_iteration_throttled llm_predict func now s hsum hspan hforce]
    exact ⟨rfl, Or.inl rfl⟩

/-- C30: in every iteration that passes the throttle (no summarize cycle due, and elapsed
at least refine_span or forced-refine set) the refine clock is set to the current time
and the forced-refine flag is cleared, whatever the queue holds and whatever the
language model returns; so when a fragment is pushed right after such an iteration, an
iteration less than refine_span seconds later leaves it in the queue: it makes no call,
or only the summarize call. -/
theorem c30_refine_cycle_resets_clock (llm_predict : Str → Str → Str) (func : Bool)
    (now : Int) (s : LLMState)
    (hnosum : ¬ (s.force_summarize = true ∧ s.refined_text ≠ []))
    (hpass : ¬ (elapsed_count s.start now < s.refine_span) ∨ s.force_refine = true) :
    (llm_iteration llm_predict func now s).1.start = now ∧
    (llm_iteration llm_predict func now s).1.force_refine = false ∧
    (∀ (text : Str) (llm_predict2 : Str → Str → Str) (func2 : Bool) (now2 : Int),
      text ≠ [] → elapsed_count now now2 < s.refine_span →
      (llm_iteration llm_predict2 func2 now2
          (LLM_refine (llm_iteration llm_predict func now s).1 text)).1.wait_refine_messages
        = (LLM_refine (llm_iteration llm_predict func now s).1 text).wait_refine_messages ∧
      text ∈ (llm_iteration llm_predict2 func2 now2
          (LLM_refine (llm_iteration llm_predict func now s).1 text)).1.wait_refine_messages.q ∧
      ((llm_iteration llm_predict2 func2 now2
          (LLM_refine (llm_iteration llm_predict func now s).1 text)).2.calls = [] ∨
        (llm_iteration llm_predict2 func2 now2
          (LLM_refine (llm_iteration llm_predict func now s).1 text)).2.calls
          = [((llm_iteration llm_predict func now s).1.refined_text,
              s.summarize_system_prompt)])) := by
  obtain ⟨f1, f2, f3⟩ := llm_iteration_refine_fields llm_predict func now s hnosum hpass
  refine ⟨f1, f2, ?_⟩
  intro text llm_predict2 func2 now2 htext hspan
  have hlen : text.length > 0 := List.length_pos.mpr htext
  have hr : LLM_refine (llm_iteration llm_predict func now s).1 text
      = { (llm_iteration llm_predict func now s).1 with
          wait_refine_messages :=
            (llm_iteration llm_predict func now s).1.wait_refine_messages.push text } := by
    unfold LLM_refine
    rw [if_pos hlen]
  have hsp : (llm_iteration llm_predict func now s).1.summarize_system_prompt
      = s.summarize_system_prompt := by
    rw [llm_iteration_refine llm_predict func now s hnosum hpass]
    split
    · rfl
    · split <;> rfl
  obtain ⟨k1, k2⟩ := llm_iteration_keeps_queue_when_throttled llm_predict2 func2 now2
    (LLM_refine (llm_iteration llm_predict func now s).1 text)
    (by rw [hr]; simp only; rw [f1, f3]; exact hspan)
    (by rw [hr]; exact f2)
  have hfields : (LLM_refine (llm_iteration llm_predict func now s).1 text).refined_text
        = (llm_iteration llm_predict func now s).1.refined_text ∧
      (LLM_refine (llm_iteration llm_predict func now s).1 text).summarize_system_prompt
        = s.summarize_system_prompt := by
    rw [hr]
    exact ⟨rfl, hsp⟩
  rw [hfields.1, hfields.2] at k2
  refine ⟨k1, ?_, k2⟩
  rw [k1, hr]
  simp [RefineQueue.push]

/-- Witness for C30: a forced refine on an empty queue at time 0, then the fragment "ab"
is pushed and the loop iterates 5 seconds later, the span being 120 seconds. -/
theorem c30_refine_cycle_resets_clock_witness :
    (llm_iteration (fun _ _ => [121]) true 5000000000
        (LLM_refine
          (llm_iteration (fun _ _ => [121]) true 0
            { refine_system_prompt := [82], refine_chunk_size := 1024, refine_span := 120,
              summarize_system_prompt := [83], force_refine := true,
              force_summarize := false,
              wait_refine_messages := { q := [], cur_size := 0 },
              refined_text := [], summarized_text := [], status := LLMStatus.LLM_IDLE,
              start := 0, refine_output_file := none }).1
          [97, 98])).1.wait_refine_messages
      = (LLM_refine
          (llm_iteration (fun _ _ => [121]) true 0
            { refine_system_prompt := [82], refine_chunk_size := 1024, refine_span := 120,
              summarize_system_prompt := [83], force_refine := true,
              force_summarize := false,
              wait_refine_messages := { q := [], cur_size := 0 },
              refined_text := [], summarized_text := [], status := LLMStatus.LLM_IDLE,
              start := 0, refine_output_file := none }).1
          [97, 98]).wait_refine_messages :=
  ((c30_refine_cycle_resets_clock (fun _ _ => [121]) true 0
    { refine_system_prompt := [82], refine_chunk_size := 1024, refine_span := 120,
      summarize_system_prompt := [83], force_refine := true, force_summarize := false,
      wait_refine_messages := { q := [], cur_size := 0 },
      refined_text := [], summarized_text := [], status := LLMStatus.LLM_IDLE,
      start := 0, refine_output_file := none }
    (by decide) (Or.inr rfl)).2.2 [97, 98] (fun _ _ => [121]) true 5000000000
    (by decide) (by decide)).1

/-- C27: for lfr_m >= 1 and lfr_n >= 1, the padding and stacking of
`normalize_features` stay within the frame list if and only if the input is non-empty or
lfr_m < 3; for the empty input with lfr_m >= 3 the front padding reads element 0 of the
empty list, so that `normalize_features` is undefined before `ASR::asr` reaches its test
for empty features. -/
theorem c27_stacking_in_bounds_iff {α : Type} [Add α] [Mul α] (lfr_m lfr_n : Nat)
    (hm : 1 ≤ lfr_m) (hn : 1 ≤ lfr_n) (features : List (List α)) :
    ((lfr_stack lfr_m lfr_n features).isSome = true ↔ (features ≠ [] ∨ lfr_m < 3)) ∧
    (features = [] → 3 ≤ lfr_m →
      pad_front ((lfr_m - 1) / 2) features = none ∧
      ∀ means_list vars_list : List α,
        normalize_features lfr_m lfr_n means_list vars_list features = none ∧
        asr_normalized lfr_m lfr_n means_list vars_list features = none) ∧
    (features = [] → lfr_m < 3 →
      ∀ means_list vars_list : List α,
        asr_normalized lfr_m lfr_n means_list vars_list features = some none) := by
  have hpadnone : features = [] → 3 ≤ lfr_m → pad_front ((lfr_m - 1) / 2) features = none := by
    intro he h3
    obtain ⟨c, hc⟩ : ∃ c, (lfr_m - 1) / 2 = c + 1 := ⟨(lfr_m - 1) / 2 - 1, by omega⟩
    rw [hc, he]
    simp [pad_front]
  have hstacknone : features = [] → 3 ≤ lfr_m → lfr_stack lfr_m lfr_n features = none := by
    intro he h3
    unfold lfr_stack
    rw [if_neg (by omega)]
    simp only [hpadnone he h3]
  have hstacksmall : features = [] → lfr_m < 3 → lfr_stack lfr_m lfr_n features = some [] := by
    intro he h3
    have hz : (lfr_m - 1) / 2 = 0 := by omega
    have hcount : lfr_count 0 lfr_n = 0 := by
      unfold lfr_count
      exact Nat.div_eq_of_lt (by omega)
    unfold lfr_stack
    rw [if_neg (by omega), he]
    simp [hz, pad_front, hcount, lfr_windows]
  refine ⟨?_, ?_, ?_⟩
  · constructor
    · intro hsome
      by_contra hcon
      push_neg at hcon
      rw [hstacknone hcon.1 (by omega)] at hsome
      simp at hsome
    · intro h
      by_cases he : features = []
      · rcases h with h1 | h2
        · exact absurd he h1
        · rw [hstacksmall he h2]; rfl
      · have hT : 1 ≤ features.length := List.length_pos.mpr he
        rw [lfr_stack_eq lfr_m lfr_n features hT hn]
        rfl
  · intro he h3
    refine ⟨hpadnone he h3, ?_⟩
    intro means_list vars_list
    have hnf : normalize_features lfr_m lfr_n means_list vars_list features = none := by
      unfold normalize_features
      rw [hstacknone he h3]
    exact ⟨hnf, by unfold asr_normalized; rw [hnf]⟩
  · intro he h3 means_list vars_list
    unfold asr_normalized normalize_features
    rw [hstacksmall he h3]
    simp [cmvn_frames]

/-- Witness for C27: the empty frame list with lfr_m = 7, lfr_n = 6. -/
theorem c27_stacking_in_bounds_iff_witness :
    pad_front ((7 - 1) / 2) ([] : List (List Int)) = none ∧
    ∀ means_list vars_list : List Int,
      normalize_features 7 6 means_list vars_list ([] : List (List Int)) = none ∧
      asr_normalized 7 6 means_list vars_list ([] : List (List Int)) = none :=
  (c27_stacking_in_bounds_iff 7 6 (by decide) (by decide) ([] : List (List Int))).2.1
    rfl (by decide)

theorem ctc_decode_shape (vocab : List Str) (tokens : List Nat) (result : Str)
    (h : ctc_decode vocab tokens = Except.ok result) :
    ∃ tags text, result
      = tags.str_lang ++ tags.str_emo ++ tags.str_event ++ [32] ++ ctc_punct tags text := by
  unfold ctc_decode at h
  cases ht : ctc_tags vocab tokens with
  | error e => rw [ht] at h; simp [bind, Except.bind] at h
  | ok tags =>
    cases hw : ctc_words vocab tokens with
    | error e => rw [ht, hw] at h; simp [bind, Except.bind] at h
    | ok text =>
      rw [ht, hw] at h
      simp only [bind, Except.bind, pure, Except.pure, Except.ok.injEq] at h
      exact ⟨tags, text, h.symm⟩

/-- C28: whenever `ctc_search` returns, the returned string is not empty, as it contains
the separating space; hence the callback of `main`, which passes the result to
`LLM::refine`, always appends it to the pending-refine queue and leaves the forced-refine
flag as it is, also when no text token was decoded. -/
theorem c28_ctc_search_result_not_empty {α : Type} [LT α]
    [DecidableRel (fun (a b : α) => a < b)] (vocab : List Str) (data : List α)
    (speech_length vocab_size : Nat) (result : Str)
    (h : ctc_search vocab data speech_length vocab_size = Except.ok result) :
    result ≠ [] ∧ 32 ∈ result ∧
    ∀ llm : LLMState,
      (asr_callback llm result).wait_refine_messages.q
        = llm.wait_refine_messages.q ++ [result] ∧
      (asr_callback llm result).force_refine = llm.force_refine := by
  obtain ⟨tags, text, hshape⟩ := ctc_decode_shape vocab _ result h
  have hmem : 32 ∈ result := by rw [hshape]; simp
  have hne : result ≠ [] := List.ne_nil_of_mem hmem
  refine ⟨hne, hmem, ?_⟩
  intro llm
  have hlen : result.length > 0 := List.length_pos.mpr hne
  unfold asr_callback LLM_refine
  rw [if_pos hlen]
  exact ⟨rfl, rfl⟩

/-- Witness for C28: no frame at all, so no token is decoded and the result is " ". -/
theorem c28_ctc_search_result_not_empty_witness :
    ([32] : Str) ≠ [] ∧ 32 ∈ ([32] : Str) ∧
    ∀ llm : LLMState,
      (asr_callback llm [32]).wait_refine_messages.q = llm.wait_refine_messages.q ++ [[32]] ∧
      (asr_callback llm [32]).force_refine = llm.force_refine :=
  c28_ctc_search_result_not_empty [[48]] ([] : List Nat) 0 1 [32] (by decide)

/-- C29 as stated fails: the word "a▁b" contains the marker, not at its start; the text
loop adds a space and the word without its first three bytes, which cuts the marker: the
text gained is " " followed by the bytes 0x81 and "b", and the marker does not stay in
the output. -/
theorem c29_marker_inside_word_counterexample :
    unicodeChar <:+: ([97, 226, 150, 129, 98] : Str) ∧
    ¬ (unicodeChar <+: ([97, 226, 150, 129, 98] : Str)) ∧
    ctc_words [[48], [49], [50], [51], [97, 226, 150, 129, 98]] ([0, 1, 2, 3] ++ [4])
      = Except.ok [32, 129, 98] ∧
    ¬ (unicodeChar <:+: ([32, 129, 98] : Str)) := by
  decide

/-- C29, amended: in the text loop of `ctc_search`, for every text token whose vocabulary
string contains the marker "▁" at any position, the text gains a space followed by the
string without its first three bytes; when the marker begins at byte 3 or later, the
first three bytes of the string are dropped and the marker stays in the output. -/
theorem c29_marker_anywhere_drops_three_bytes (vocab : List Str) (tokens : List Nat)
    (k : Nat) (text : Str) (h4 : 4 ≤ tokens.length) (hk : k < vocab.length)
    (hprev : ctc_words vocab tokens = Except.ok text)
    (hin : unicodeChar <:+: vocab.getD k []) :
    ctc_words vocab (tokens ++ [k])
      = Except.ok (text ++ [32] ++ (vocab.getD k []).drop 3) ∧
    (∀ pre post : Str, vocab.getD k [] = pre ++ unicodeChar ++ post → 3 ≤ pre.length →
      (vocab.getD k []).drop 3 = pre.drop 3 ++ unicodeChar ++ post ∧
      unicodeChar <:+: (vocab.getD k []).drop 3) := by
  constructor
  · obtain ⟨p, hp⟩ := str_find_some_of_infix unicodeChar (vocab.getD k []) hin
    rw [ctc_words_eq] at hprev ⊢
    rw [List.drop_append_of_le_length h4, List.foldlM_append, hprev]
    simp only [bind, Except.bind, List.foldlM_cons, List.foldlM_nil,
      vocabAt_of_lt vocab k hk, Except.map, pure, Except.pure, appendWord, hp]
    simp
  · intro pre post hw hpre
    have hd : (vocab.getD k []).drop 3 = pre.drop 3 ++ unicodeChar ++ post := by
      rw [hw, List.append_assoc, List.drop_append_of_le_length hpre, List.append_assoc]
    exact ⟨hd, by rw [hd]; exact ⟨pre.drop 3, post, rfl⟩⟩

/-- Witness for C29 (amended): the word "abc▁d" after the four metadata tokens adds
" ▁d". -/
theorem c29_marker_anywhere_drops_three_bytes_witness :
    ctc_words [[48], [49], [50], [51], [97, 98, 99, 226, 150, 129, 100]] ([0, 1, 2, 3] ++ [4])
      = Except.ok ([] ++ [32] ++
          (([[48], [49], [50], [51], [97, 98, 99, 226, 150, 129, 100]] : List Str).getD 4
            []).drop 3) :=
  (c29_marker_anywhere_drops_three_bytes
    [[48], [49], [50], [51], [97, 98, 99, 226, 150, 129, 100]] [0, 1, 2, 3] 4 []
    (by decide) (by decide) (by decide)
    ⟨[97, 98, 99], [100], by decide⟩).1

/-! ## Theorems: the thread of `ASR::setAudio` -/

theorem chunk_lengths_ordered {α : Type} (s : ASRState α) (h0 : 0 ≤ s.overlap_time)
    (h1 : s.overlap_time ≤ s.chunk_time) (hrate : 0 ≤ s.asr_sample_rate) :
    0 ≤ overlap_chunk_length s ∧ overlap_chunk_length s ≤ min_chunk_length s := by
  have hc : 0 ≤ s.chunk_time := le_trans h0 h1
  have ho : 0 ≤ s.overlap_time * s.asr_sample_rate := Int.mul_nonneg h0 hrate
  have hm : 0 ≤ s.chunk_time * s.asr_sample_rate := Int.mul_nonneg hc hrate
  have hle : s.overlap_time * s.asr_sample_rate ≤ s.chunk_time * s.asr_sample_rate :=
    Int.mul_le_mul_of_nonneg_right h1 hrate
  unfold overlap_chunk_length min_chunk_length
  rw [Int.tdiv_eq_ediv ho (by decide), Int.tdiv_eq_ediv hm (by decide)]
  generalize s.overlap_time * s.asr_sample_rate = o at ho hle
  generalize s.chunk_time * s.asr_sample_rate = m at hm hle
  omega

theorem toSizeT_of_nonneg_le (x : Int) (n : Nat) (h0 : 0 ≤ x) (h1 : x < 2 ^ 31) :
    (toSizeT x ≤ n ↔ x ≤ (n : Int)) := by
  rw [toSizeT_of_int_range x h0 h1]
  omega

/-- C21: for an ASR configuration with 0 <= overlap_time <= chunk_time (the clamp of
`ASR::init` gives overlap_time <= chunk_time), a non-negative rate, and an accumulation
buffer A (the old `audio_data` followed by the chunk just read) of at least
min_chunk_length = chunk_time * rate / 1000 samples, the inference cycle runs on A, the
erased range lies within A, and afterwards `audio_data` is exactly the last
overlap_time * rate / 1000 samples of A, in order. -/
theorem c21_cycle_keeps_overlap {α : Type} (asr : List α → Str) (func : Bool)
    (s : ASRState α) (chunk : List α)
    (h0 : 0 ≤ s.overlap_time) (h1 : s.overlap_time ≤ s.chunk_time)
    (hrate : 0 ≤ s.asr_sample_rate) (hint : min_chunk_length s < 2 ^ 31)
    (hA : min_chunk_length s ≤ ((s.audio_data ++ chunk).length : Int)) :
    (∀ chunk_time overlap_time : Int,
      (asr_init_times chunk_time overlap_time).2 ≤ (asr_init_times chunk_time overlap_time).1 ∧
      (overlap_time ≤ chunk_time →
        asr_init_times chunk_time overlap_time = (chunk_time, overlap_time))) ∧
    (0 ≤ overlap_chunk_length s ∧
      overlap_chunk_length s ≤ ((s.audio_data ++ chunk).length : Int)) ∧
    ∃ s2 effects, asr_accumulate asr func s chunk = some (s2, effects) ∧
      effects.inferred = [s.audio_data ++ chunk] ∧
      s2.audio_data = (s.audio_data ++ chunk).drop
        ((s.audio_data ++ chunk).length - (overlap_chunk_length s).toNat) ∧
      (s2.audio_data.length : Int) = overlap_chunk_length s ∧
      s2.audio_data <:+ (s.audio_data ++ chunk) := by
  obtain ⟨ho0, hom⟩ := chunk_lengths_ordered s h0 h1 hrate
  have hm0 : 0 ≤ min_chunk_length s := le_trans ho0 hom
  have hrange : 0 ≤ overlap_chunk_length s ∧
      overlap_chunk_length s ≤ ((s.audio_data ++ chunk).length : Int) := ⟨ho0, by omega⟩
  refine ⟨?_, hrange, ?_⟩
  · intro chunk_time overlap_time
    unfold asr_init_times
    constructor
    · simp only
      split <;> omega
    · intro hle
      rw [if_neg (by omega)]
  · have hcond : (s.audio_data ++ chunk).length ≥ toSizeT (min_chunk_length s) :=
      (toSizeT_of_nonneg_le _ _ hm0 hint).mpr hA
    unfold asr_accumulate
    simp only [hcond, if_true, hrange, and_self]
    refine ⟨_, _, rfl, rfl, rfl, ?_, List.drop_suffix _ _⟩
    simp only [List.length_drop]
    omega

/-- Witness for C21: chunk_time 2 ms, overlap_time 1 ms at 1000 samples per second, the
accumulation buffer [5, 6, 7]. -/
theorem c21_cycle_keeps_overlap_witness :
    ∃ s2 effects,
      asr_accumulate (fun _ => [65]) true (⟨2, 1, 1000, false, [5], []⟩ : ASRState Nat) [6, 7]
        = some (s2, effects) ∧
      effects.inferred = [[5] ++ [6, 7]] ∧
      s2.audio_data = ([5] ++ [6, 7]).drop
        (([5] ++ [6, 7]).length
          - (overlap_chunk_length (⟨2, 1, 1000, false, [5], []⟩ : ASRState Nat)).toNat) ∧
      (s2.audio_data.length : Int)
        = overlap_chunk_length (⟨2, 1, 1000, false, [5], []⟩ : ASRState Nat) ∧
      s2.audio_data <:+ ([5] ++ [6, 7]) :=
  (c21_cycle_keeps_overlap (fun _ => [65]) true (⟨2, 1, 1000, false, [5], []⟩ : ASRState Nat)
    [6, 7] (by decide) (by decide) (by decide) (by decide) (by decide)).2.2

/-- C23 at its failing input: a cycle whose inference returns the empty string (chunk_time
1 ms, 16 samples buffered, `asr` returning ""). The thread still calls the callback, with
the empty string, and the callback of `main` passes it to `LLM::refine`, which takes the
empty text as a forced refine and sets the flag. In general a cycle reports the result of
`asr` to a non-null callback whether it is empty or not. -/
theorem c23_empty_result_still_reported :
    (asr_iteration (fun _ => []) true (⟨1, 0, 16000, false, [], []⟩ : ASRState Nat)
        ((AudioBuffer.init 20 : AudioBuffer Nat).write (List.range 16))).map
      (fun r => (r.2.2.inferred.length, r.2.2.reported)) = some (1, [[]]) ∧
    (∀ llm : LLMState, (asr_callback llm []).force_refine = true ∧
      (asr_callback llm []).wait_refine_messages = llm.wait_refine_messages) ∧
    (∀ (asr : List Nat → Str) (s s2 : ASRState Nat) (chunk : List Nat)
        (effects : ASREffects Nat),
      asr_accumulate asr true s chunk = some (s2, effects) →
      effects.inferred = [s.audio_data ++ chunk] →
      effects.reported = [asr (s.audio_data ++ chunk)]) := by
  refine ⟨by decide, ?_, ?_⟩
  · intro llm
    unfold asr_callback LLM_refine
    simp
  · intro asr s s2 chunk effects h hinf
    simp only [asr_accumulate, if_true] at h
    by_cases hc : (s.audio_data ++ chunk).length ≥ toSizeT (min_chunk_length s)
    · rw [if_pos hc] at h
      by_cases hr : 0 ≤ overlap_chunk_length s ∧
          overlap_chunk_length s ≤ ((s.audio_data ++ chunk).length : Int)
      · rw [if_pos hr] at h
        simp only [Option.some.injEq, Prod.mk.injEq] at h
        rw [← h.2]
      · rw [if_neg hr] at h
        exact absurd h (by simp)
    · rw [if_neg hc] at h
      simp only [Option.some.injEq, Prod.mk.injEq] at h
      rw [← h.2] at hinf
      simp at hinf

theorem readAudio_two_seconds {α : Type} [Inhabited α] (b : AudioBuffer α) (h : b.Wf) :
    (readAudio b 2000).2 = b.unread.take 32000 ∧ (readAudio b 2000).1.Wf ∧
    (readAudio b 2000).1.unread = b.unread.drop 32000 ∧
    (b.available = 0 → (readAudio b 2000).1 = b) := by
  have hn : toSizeT (Int.tdiv (2000 * sampleRate) 1000) = 32000 := by decide
  have hr : readAudio b 2000 = b.read 32000 := by
    unfold readAudio
    rw [if_neg (by decide), hn]
  rw [hr]
  obtain ⟨j1, _, _, _, j5, _⟩ := AudioBuffer.read_unread b 32000 h
  refine ⟨by rw [AudioBuffer.read_eq b _ h], j1, j5, ?_⟩
  intro h0
  rw [AudioBuffer.read_eq b _ h, h0]
  simp [Nat.mod_eq_of_lt h.read_lt]

theorem asr_iteration_idle {α : Type} [Inhabited α] (asr : List α → Str) (func : Bool)
    (s : ASRState α) (b : AudioBuffer α) (h : b.Wf) (hct : s.chunk_time = 2000)
    (h0 : b.available = 0) :
    asr_iteration asr func s b = some (s, b, { inferred := [], reported := [], sleeps := 1 }) := by
  obtain ⟨r1, _, _, r4⟩ := readAudio_two_seconds b h
  have hu : b.unread = [] := by
    apply List.eq_nil_of_length_eq_zero
    rw [AudioBuffer.unread_length, h0]
  unfold asr_iteration
  rw [hct, r1, hu, r4 h0]
  simp

theorem asr_run_idle {α : Type} [Inhabited α] (asr : List α → Str) (func : Bool)
    (s : ASRState α) (b : AudioBuffer α) (h : b.Wf) (hct : s.chunk_time = 2000)
    (h0 : b.available = 0) (n : Nat) :
    asr_run asr func n s b = some (s, b, { inferred := [], reported := [], sleeps := n }) := by
  induction n with
  | zero => rfl
  | succ n ih =>
    simp only [asr_run, asr_iteration_idle asr func s b h hct h0, ih, ASREffects.append]
    simp [Nat.add_comm]

theorem chunk_lengths_two_seconds {α : Type} (s : ASRState α) (h1 : s.chunk_time = 2000)
    (h2 : s.overlap_time = 800) (h3 : s.asr_sample_rate = 16000) :
    toSizeT (min_chunk_length s) = 32000 ∧ overlap_chunk_length s = 12800 := by
  unfold min_chunk_length overlap_chunk_length
  rw [h1, h2, h3]
  exact ⟨by decide, by decide⟩

/-- The loop of `ASR::setAudio` over a 3-second waveform: `xs` are the
48000 samples, written into an empty ring buffer of capacity above 48000; the
configuration is chunk_time 2000 ms, overlap_time 800 ms, 16000 samples per second. -/
theorem asr_run_three_seconds {α : Type} [Inhabited α] (asr : List α → Str) (func : Bool)
    (save : Bool) (out : Str) (xs : List α) (C : Nat) (hx : xs.length = 48000)
    (hC : 48000 < C) (n : Nat) :
    ∃ b2, b2.available = 0 ∧
      asr_run asr func (n + 2) (⟨2000, 800, 16000, save, [], out⟩ : ASRState α)
          ((AudioBuffer.init C : AudioBuffer α).write xs)
        = some (⟨2000, 800, 16000, save, xs.drop 19200,
                  if save = true then out ++ asr (xs.take 32000) else out⟩,
            b2,
            { inferred := [xs.take 32000],
              reported := if func then [asr (xs.take 32000)] else [],
              sleeps := n }) := by
  obtain ⟨w1, w2, w3, w4⟩ := AudioBuffer.init_wf (α := α) C (by omega)
  obtain ⟨i1, _, _, i4⟩ :=
    AudioBuffer.write_spec xs (AudioBuffer.init C : AudioBuffer α) w1 w2
  have hcap : (AudioBuffer.init C : AudioBuffer α).capacity = C := rfl
  rw [w3, w4, hcap, List.nil_append, Nat.zero_add] at i4
  have hd : xs.length - (C - 1) = 0 := by omega
  rw [hd, List.drop_zero] at i4
  generalize (AudioBuffer.init C : AudioBuffer α).write xs = b0 at i1 i4
  -- first iteration: a full chunk, one inference cycle
  obtain ⟨a1, a2, a3, _⟩ := readAudio_two_seconds b0 i1
  rw [i4] at a1 a3
  have hlen1 : (xs.take 32000).length = 32000 := by
    rw [List.length_take, hx]; rfl
  have hmin : ∀ (ad : List α) (o : Str), toSizeT (min_chunk_length
      (⟨2000, 800, 16000, save, ad, o⟩ : ASRState α)) = 32000 :=
    fun ad o => (chunk_lengths_two_seconds _ rfl rfl rfl).1
  have hov : ∀ (ad : List α) (o : Str), overlap_chunk_length
      (⟨2000, 800, 16000, save, ad, o⟩ : ASRState α) = 12800 :=
    fun ad o => (chunk_lengths_two_seconds _ rfl rfl rfl).2
  have hne1 : (xs.take 32000).isEmpty = false := by
    cases hxs : xs.take 32000 with
    | nil => rw [hxs] at hlen1; simp at hlen1
    | cons a l => rfl
  have it1 : asr_iteration asr func (⟨2000, 800, 16000, save, [], out⟩ : ASRState α) b0
      = some (⟨2000, 800, 16000, save, (xs.take 32000).drop 19200,
                if save = true then out ++ asr (xs.take 32000) else out⟩,
          (readAudio b0 2000).1,
          { inferred := [xs.take 32000],
            reported := if func then [asr (xs.take 32000)] else [], sleeps := 0 }) := by
    unfold asr_iteration
    simp only [a1, hne1, Bool.false_eq_true, if_false]
    unfold asr_accumulate
    simp only [List.nil_append, hmin, hov, hlen1]
    simp
  -- second iteration: the rest of the waveform, below the minimum chunk length
  generalize (readAudio b0 2000).1 = b1 at a2 a3 it1
  obtain ⟨c1, c2, c3, _⟩ := readAudio_two_seconds b1 a2
  rw [a3] at c1 c3
  have hlen2 : (xs.drop 32000).length = 16000 := by
    rw [List.length_drop, hx]
  have hc1 : (readAudio b1 2000).2 = xs.drop 32000 := by
    rw [c1, List.take_of_length_le (by omega)]
  have hc3 : (readAudio b1 2000).1.unread = [] := by
    rw [c3, List.drop_drop]
    exact List.drop_of_length_le (by omega)
  have hne2 : (xs.drop 32000).isEmpty = false := by
    cases hxs : xs.drop 32000 with
    | nil => rw [hxs] at hlen2; simp at hlen2
    | cons a l => rfl
  have hjoin : (xs.take 32000).drop 19200 ++ xs.drop 32000 = xs.drop 19200 := by
    rw [← List.drop_append_of_le_length (by omega), List.take_append_drop]
  have hlen3 : (xs.drop 19200).length = 28800 := by
    rw [List.length_drop, hx]
  have it2 : ∀ o : Str,
      asr_iteration asr func
          (⟨2000, 800, 16000, save, (xs.take 32000).drop 19200, o⟩ : ASRState α) b1
        = some (⟨2000, 800, 16000, save, xs.drop 19200, o⟩, (readAudio b1 2000).1,
            { inferred := [], reported := [], sleeps := 0 }) := by
    intro o
    unfold asr_iteration
    simp only [hc1, hne2, Bool.false_eq_true, if_false]
    unfold asr_accumulate
    simp only [hjoin, hmin, hlen3]
    simp
  have hav : (readAudio b1 2000).1.available = 0 := by
    rw [← AudioBuffer.unread_length, hc3]; rfl
  refine ⟨(readAudio b1 2000).1, hav, ?_⟩
  have hidle := fun o : Str => asr_run_idle asr func
    (⟨2000, 800, 16000, save, xs.drop 19200, o⟩ : ASRState α) _ c2 rfl hav n
  simp only [asr_run, it1, it2, hidle, ASREffects.append]
  simp

/-- C22 as stated fails: with chunk_time 2000 ms, overlap_time 800 ms and 16000 samples
per second, ten iterations of the loop over a ring buffer of capacity 48001 that holds
the 48000 samples 0, 1, ..., 47999 drain the buffer and perform one inference cycle, not
two: the 28800 samples left in `audio_data` are fewer than min_chunk_length = 32000. -/
theorem c22_three_seconds_two_cycles_counterexample :
    ∃ r, asr_run (fun _ => [65]) true 10 (⟨2000, 800, 16000, false, [], []⟩ : ASRState Nat)
          ((AudioBuffer.init 48001 : AudioBuffer Nat).write (List.range 48000)) = some r ∧
      r.2.1.available = 0 ∧ r.2.2.inferred.length = 1 ∧ r.2.2.inferred.length ≠ 2 ∧
      r.1.audio_data.length = 28800 := by
  obtain ⟨b2, h0, hrun⟩ := asr_run_three_seconds (fun _ => [65]) true false []
    (List.range 48000) 48001 (List.length_range 48000) (by decide) 8
  refine ⟨_, hrun, h0, rfl, ?_, ?_⟩
  · show (1 : Nat) ≠ 2
    decide
  · simp

/-- C22, amended: with chunk_time = 2000 ms, overlap_time = 800 ms and a 16 kHz rate,
running the loop over a ring buffer that holds a 3-second waveform (48000 samples,
capacity larger than that) until the buffer is drained, that is for two iterations, and
for any number of further iterations, performs exactly one inference cycle, on the first
32000 samples; the accumulation buffer then holds the last 28800 samples, fewer than
min_chunk_length = 32000, and it starts with the last 800 ms (12800 samples) of the
accumulation buffer of the first cycle. -/
theorem c22_three_seconds_one_cycle {α : Type} [Inhabited α] (asr : List α → Str)
    (func : Bool) (save : Bool) (out : Str) (xs : List α) (C : Nat)
    (hx : xs.length = 48000) (hC : 48000 < C) (n : Nat) :
    ∃ s2 b2 effects,
      asr_run asr func (n + 2) (⟨2000, 800, 16000, save, [], out⟩ : ASRState α)
          ((AudioBuffer.init C : AudioBuffer α).write xs) = some (s2, b2, effects) ∧
      b2.available = 0 ∧
      effects.inferred = [xs.take 32000] ∧ effects.inferred.length = 1 ∧
      effects.sleeps = n ∧
      s2.audio_data = xs.drop 19200 ∧ s2.audio_data.length = 28800 ∧
      (s2.audio_data.length : Int) < min_chunk_length s2 ∧
      (xs.take 32000).drop (32000 - 12800) <+: s2.audio_data ∧
      ((xs.take 32000).drop (32000 - 12800)).length = 12800 := by
  obtain ⟨b2, h0, hrun⟩ := asr_run_three_seconds asr func save out xs C hx hC n
  refine ⟨_, b2, _, hrun, h0, rfl, rfl, rfl, rfl, ?_, ?_, ?_, ?_⟩
  · simp only [List.length_drop, hx]
  · simp only [List.length_drop, hx, min_chunk_length]
    decide
  · refine ⟨xs.drop 32000, ?_⟩
    show (xs.take 32000).drop 19200 ++ xs.drop 32000 = xs.drop 19200
    rw [← List.drop_append_of_le_length
      (by rw [List.length_take, hx]; decide), List.take_append_drop]
  · simp only [List.length_drop, List.length_take, hx]
    decide

/-- Witness for C22 (amended): the samples 0, 1, ..., 47999 in a buffer of capacity
48001, two iterations. -/
theorem c22_three_seconds_one_cycle_witness :
    ∃ s2 b2 effects,
      asr_run (fun _ => [65]) true (0 + 2) (⟨2000, 800, 16000, false, [], []⟩ : ASRState Nat)
          ((AudioBuffer.init 48001 : AudioBuffer Nat).write (List.range 48000))
        = some (s2, b2, effects) ∧
      b2.available = 0 ∧
      effects.inferred = [(List.range 48000).take 32000] ∧ effects.inferred.length = 1 ∧
      effects.sleeps = 0 ∧
      s2.audio_data = (List.range 48000).drop 19200 ∧ s2.audio_data.length = 28800 ∧
      (s2.audio_data.length : Int) < min_chunk_length s2 ∧
      ((List.range 48000).take 32000).drop (32000 - 12800) <+: s2.audio_data ∧
      (((List.range 48000).take 32000).drop (32000 - 12800)).length = 12800 :=
  c22_three_seconds_one_cycle (fun _ => [65]) true false [] (List.range 48000) 48001
    (List.length_range 48000) (by decide) 0

end VoiceLint
